import Mathlib

/-!
Shallow embedding, in Lean 4, of the incremental hashing engine of the
`keeg` C++ library (namespace `keeg::hashing`): the streaming buffer
skeleton shared by the Merkle–Damgård algorithms (MD5, SHA-1, SHA-256)
and the SHA-3 sponge, the CRC-32/CRC-64 slicing-by-16 cores, the
xxHash32/xxHash64 seeded mixers, and the `HashAlgorithm` base-class
drivers (`computeHash` over memory and over a stream).

Conventions of the embedding:
* a C++ `uint8_t` byte is `Fin 256`; byte buffers are `List Byte`;
* `uint32_t`/`uint64_t` words are `Nat` kept below `2^32`/`2^64` by
  explicit masking exactly where the C++ arithmetic wraps;
* the host is little-endian (the library selects the little-endian
  branches of its `#if __BYTE_ORDER` conditionals on every platform it
  documents; the big-endian branches are dead on such hosts), so
  `*reinterpret_cast<const uint32_t*>(p)` is a little-endian word read
  and `reinterpret_cast<uint8_t*>(&x)` is a little-endian byte dump;
* mutation of the member state becomes explicit state passing: each
  `hashCore` is a function from state and input bytes to state, each
  `hashFinal` returns the digest together with the post-call state.
-/

/-- A byte (`uint8_t`). -/
abbrev Byte := Fin 256

/-- 32-bit wrap-around addition (`uint32_t` `+`). -/
def add32 (a b : Nat) : Nat := (a + b) % 2 ^ 32

/-- 32-bit wrap-around multiplication (`uint32_t` `*`). -/
def mul32 (a b : Nat) : Nat := (a * b) % 2 ^ 32

/-- 64-bit wrap-around addition (`uint64_t` `+`). -/
def add64 (a b : Nat) : Nat := (a + b) % 2 ^ 64

/-- 64-bit wrap-around multiplication (`uint64_t` `*`). -/
def mul64 (a b : Nat) : Nat := (a * b) % 2 ^ 64

/-- 32-bit bitwise complement (`~x` on `uint32_t`). -/
def not32 (x : Nat) : Nat := x ^^^ (2 ^ 32 - 1)

/-- 64-bit bitwise complement (`~x` on `uint64_t`). -/
def not64 (x : Nat) : Nat := x ^^^ (2 ^ 64 - 1)

/-- `keeg::endian::rotateLeft` on `uint32_t`:
`numBits &= 31; (x << numBits) | (x >> ((-numBits) & 31))`. -/
def rotl32 (x n : Nat) : Nat :=
  ((x <<< (n % 32)) % 2 ^ 32) ||| (x >>> ((32 - n % 32) % 32))

/-- `keeg::endian::rotateRight` on `uint32_t`. -/
def rotr32 (x n : Nat) : Nat :=
  ((x <<< ((32 - n % 32) % 32)) % 2 ^ 32) ||| (x >>> (n % 32))

/-- `keeg::endian::rotateLeft` on `uint64_t`. -/
def rotl64 (x n : Nat) : Nat :=
  ((x <<< (n % 64)) % 2 ^ 64) ||| (x >>> ((64 - n % 64) % 64))

/-- Little-endian read of four bytes
(`*reinterpret_cast<const uint32_t*>` on a little-endian host, the
`GET32BITS` macro). The bytes are taken from the front of the list. -/
def le32 (l : List Byte) : Nat :=
  (l.getD 0 0).val + 256 * (l.getD 1 0).val + 65536 * (l.getD 2 0).val +
    16777216 * (l.getD 3 0).val

/-- Little-endian read of eight bytes (`GET64BITS` on a little-endian host). -/
def le64 (l : List Byte) : Nat :=
  le32 l + 4294967296 * le32 (l.drop 4)

/-- The four bytes of a 32-bit word, least significant first (the byte
image of a `uint32_t` in memory on a little-endian host). -/
def toLE32 (x : Nat) : List Byte :=
  [⟨x % 256, Nat.mod_lt _ (by omega)⟩,
   ⟨x / 256 % 256, Nat.mod_lt _ (by omega)⟩,
   ⟨x / 65536 % 256, Nat.mod_lt _ (by omega)⟩,
   ⟨x / 16777216 % 256, Nat.mod_lt _ (by omega)⟩]

/-- The four bytes of a 32-bit word, most significant first
(`endian::native_to_big` on `uint32_t` followed by a byte dump). -/
def toBE32 (x : Nat) : List Byte := (toLE32 x).reverse

/-- The eight bytes of a 64-bit word, least significant first. -/
def toLE64 (x : Nat) : List Byte := toLE32 (x % 4294967296) ++ toLE32 (x / 4294967296)

/-- The eight bytes of a 64-bit word, most significant first. -/
def toBE64 (x : Nat) : List Byte := (toLE64 x).reverse

theorem toLE32_length (x : Nat) : (toLE32 x).length = 4 := rfl

theorem toBE32_length (x : Nat) : (toBE32 x).length = 4 := rfl

theorem toLE64_length (x : Nat) : (toLE64 x).length = 8 := rfl

theorem toBE64_length (x : Nat) : (toBE64 x).length = 8 := rfl

/-! ## The shared buffered streaming skeleton

`Md5::hashCore`, `Sha1::hashCore`, `Sha256::hashCore` and `Sha3::hashCore`
are textually identical up to the block size and the block transform:
fill the partial buffer, process it when it reaches the block size, feed
the remaining full blocks straight from the input, buffer the tail.
`hashCoreG compress bs` is that common body; each algorithm instantiates
`compress` with its `processBlock` and `bs` with its block size. -/

/-- The mutable members shared by the buffered algorithms: `m_hash`
(of algorithm-specific type `σ`), `m_numBytes` (bytes already folded into
`m_hash`) and the first `m_bufferSize` bytes of `m_buffer`. -/
structure MdState (σ : Type) where
  hash : σ
  numBytes : Nat
  buffer : List Byte
deriving DecidableEq

/-- The `while (numBytes >= BLOCK_SIZE)` loop of `hashCore`: feed full
blocks directly from the input, counting them into `m_numBytes`; return
the new hash, the new count and the unconsumed tail. -/
def processFullBlocks {σ : Type} (compress : σ → List Byte → σ) (bs : Nat)
    (h : σ) (n : Nat) (input : List Byte) : σ × Nat × List Byte :=
  if hc : 0 < bs ∧ bs ≤ input.length then
    processFullBlocks compress bs (compress h (input.take bs)) (n + bs) (input.drop bs)
  else (h, n, input)
termination_by input.length
decreasing_by simp only [List.length_drop]; omega

/-- Folding `compress` over the maximal prefix of complete `bs`-byte
blocks of a byte string (the hash component of `processFullBlocks`). -/
def foldBlocks {σ : Type} (compress : σ → List Byte → σ) (bs : Nat)
    (h : σ) (input : List Byte) : σ :=
  if hc : 0 < bs ∧ bs ≤ input.length then
    foldBlocks compress bs (compress h (input.take bs)) (input.drop bs)
  else h
termination_by input.length
decreasing_by simp only [List.length_drop]; omega

/-- The common body of `Md5::hashCore` / `Sha1::hashCore` /
`Sha256::hashCore` / `Sha3::hashCore`, with the pointer walk over `data`
replaced by `List.take`/`List.drop`. -/
def hashCoreG {σ : Type} (compress : σ → List Byte → σ) (bs : Nat)
    (s : MdState σ) (input : List Byte) : MdState σ :=
  -- copy data to the partial buffer (loop guarded by `m_bufferSize > 0`)
  let fill := if s.buffer.length > 0 then min (bs - s.buffer.length) input.length else 0
  let buf1 := s.buffer ++ input.take fill
  let rest := input.drop fill
  -- full buffer?
  let t := if buf1.length = bs then (compress s.hash buf1, s.numBytes + bs, ([] : List Byte))
           else (s.hash, s.numBytes, buf1)
  -- no more data?
  if rest.length = 0 then ⟨t.1, t.2.1, t.2.2⟩
  else
    -- process full blocks, then keep the remaining bytes in the buffer
    let r := processFullBlocks compress bs t.1 t.2.1 rest
    ⟨r.1, r.2.1, t.2.2 ++ r.2.2⟩

theorem foldBlocks_small {σ : Type} (compress : σ → List Byte → σ) (bs : Nat)
    (h : σ) (input : List Byte) (hlen : input.length < bs) :
    foldBlocks compress bs h input = h := by
  rw [foldBlocks]
  simp only [dif_neg (by omega : ¬(0 < bs ∧ bs ≤ input.length))]

theorem foldBlocks_step {σ : Type} (compress : σ → List Byte → σ) (bs : Nat)
    (h : σ) (input : List Byte) (hbs : 0 < bs) (hlen : bs ≤ input.length) :
    foldBlocks compress bs h input
      = foldBlocks compress bs (compress h (input.take bs)) (input.drop bs) := by
  rw [foldBlocks]
  simp only [dif_pos (And.intro hbs hlen)]

theorem processFullBlocks_eq_aux {σ : Type} (compress : σ → List Byte → σ) (bs : Nat)
    (hbs : 0 < bs) :
    ∀ (L : Nat) (input : List Byte), input.length ≤ L → ∀ (h : σ) (n : Nat),
    processFullBlocks compress bs h n input
      = (foldBlocks compress bs h input,
         n + bs * (input.length / bs),
         input.drop (bs * (input.length / bs))) := by
  intro L
  induction L with
  | zero =>
    intro input hlen h n
    rw [processFullBlocks, dif_neg (by omega),
      foldBlocks_small compress bs h input (by omega),
      Nat.div_eq_of_lt (by omega), Nat.mul_zero, List.drop_zero, Nat.add_zero]
  | succ L ih =>
    intro input hlen h n
    by_cases hc : bs ≤ input.length
    · rw [processFullBlocks, dif_pos (And.intro hbs hc),
        foldBlocks_step compress bs h input hbs hc,
        ih (input.drop bs) (by simp only [List.length_drop]; omega)]
      have hdiv : input.length / bs = (input.drop bs).length / bs + 1 := by
        rw [List.length_drop, Nat.div_eq_sub_div hbs hc]
      rw [hdiv, Nat.mul_add, Nat.mul_one, List.drop_drop]
      simp only [Prod.mk.injEq]
      exact ⟨trivial, by omega, by rw [Nat.add_comm]⟩
    · rw [processFullBlocks, dif_neg (by omega),
        foldBlocks_small compress bs h input (by omega),
        Nat.div_eq_of_lt (by omega), Nat.mul_zero, List.drop_zero, Nat.add_zero]

theorem processFullBlocks_eq {σ : Type} (compress : σ → List Byte → σ) (bs : Nat)
    (hbs : 0 < bs) (input : List Byte) (h : σ) (n : Nat) :
    processFullBlocks compress bs h n input
      = (foldBlocks compress bs h input,
         n + bs * (input.length / bs),
         input.drop (bs * (input.length / bs))) :=
  processFullBlocks_eq_aux compress bs hbs input.length input (Nat.le_refl _) h n

/-- Canonical form of the buffered `hashCore`: starting from a state whose
partial buffer respects the `bufferSize < blockSize` invariant, feeding
`input` compresses exactly the complete blocks of `buffer ++ input` (in
order) and leaves the remainder in the buffer. -/
theorem hashCoreG_eq {σ : Type} (compress : σ → List Byte → σ) (bs : Nat)
    (hbs : 0 < bs) (s : MdState σ) (input : List Byte)
    (hinv : s.buffer.length < bs) :
    hashCoreG compress bs s input
      = ⟨foldBlocks compress bs s.hash (s.buffer ++ input),
         s.numBytes + bs * ((s.buffer.length + input.length) / bs),
         (s.buffer ++ input).drop (bs * ((s.buffer.length + input.length) / bs))⟩ := by
  rcases s with ⟨h, n, buf⟩
  simp only at hinv ⊢
  by_cases hb : buf.length > 0
  · by_cases hm : input.length < bs - buf.length
    · -- input fits in the buffer without filling it
      have hfill : min (bs - buf.length) input.length = input.length :=
        Nat.min_eq_right (by omega)
      have hne : ¬((buf ++ input).length = bs) := by
        simp only [List.length_append]; omega
      simp only [hashCoreG, if_pos hb, hfill, List.take_length, List.drop_length,
        List.length_nil, eq_self_iff_true, if_true, if_neg hne]
      rw [foldBlocks_small compress bs h (buf ++ input)
          (by simp only [List.length_append]; omega),
        Nat.div_eq_of_lt (by omega), Nat.mul_zero, Nat.add_zero, List.drop_zero]
    · -- the buffer is filled to a complete block and processed
      have hfill : min (bs - buf.length) input.length = bs - buf.length :=
        Nat.min_eq_left (by omega)
      have hlenb : (buf ++ input.take (bs - buf.length)).length = bs := by
        simp only [List.length_append, List.length_take]; omega
      have htake : (buf ++ input).take bs = buf ++ input.take (bs - buf.length) := by
        rw [List.take_append_eq_append_take, List.take_of_length_le (by omega)]
      have hdrop : (buf ++ input).drop bs = input.drop (bs - buf.length) := by
        rw [List.drop_append_eq_append_drop, List.drop_eq_nil_of_le (by omega),
          List.nil_append]
      have hstep := foldBlocks_step compress bs h (buf ++ input) hbs
        (by simp only [List.length_append]; omega)
      rw [htake, hdrop] at hstep
      by_cases hr : (input.drop (bs - buf.length)).length = 0
      · -- the input ends exactly at the block boundary
        have hm' : input.length = bs - buf.length := by
          simp only [List.length_drop] at hr; omega
        simp only [hashCoreG, if_pos hb, hfill, if_pos hlenb, if_pos hr]
        rw [hstep, foldBlocks_small compress bs _ _ (by simp only [List.length_drop]; omega)]
        have hdiv : (buf.length + input.length) / bs = 1 := by
          rw [hm']; rw [Nat.div_eq_of_lt_le] <;> omega
        rw [hdiv, Nat.mul_one, hdrop, List.eq_nil_of_length_eq_zero hr]
      · -- further full blocks are streamed directly from the input
        simp only [hashCoreG, if_pos hb, hfill, if_pos hlenb, if_neg hr,
          processFullBlocks_eq compress bs hbs, List.nil_append]
        rw [hstep]
        have hrl : (input.drop (bs - buf.length)).length = buf.length + input.length - bs := by
          simp only [List.length_drop]; omega
        have hdiv : (buf.length + input.length) / bs
            = (buf.length + input.length - bs) / bs + 1 := by
          rw [Nat.div_eq_sub_div hbs (by omega)]
        simp only [MdState.mk.injEq, true_and, hrl]
        constructor
        · rw [hdiv]; ring
        · rw [hdiv, Nat.mul_add, Nat.mul_one, Nat.add_comm (bs * _) bs, ← List.drop_drop, hdrop]
  · -- empty buffer: blocks are streamed directly from the input
    have hbuf : buf = [] := List.eq_nil_of_length_eq_zero (by omega)
    subst hbuf
    have hzb : ¬((0 : Nat) = bs) := by omega
    by_cases hz : input.length = 0
    · have hinp : input = [] := List.eq_nil_of_length_eq_zero hz
      subst hinp
      have hfb : foldBlocks compress bs h [] = h :=
        foldBlocks_small compress bs h [] (by simp only [List.length_nil]; omega)
      simp [hashCoreG, hzb, hfb]
    · simp [hashCoreG, hzb, hz, processFullBlocks_eq compress bs hbs]

theorem foldBlocks_append_aux {σ : Type} (compress : σ → List Byte → σ) (bs : Nat)
    (hbs : 0 < bs) :
    ∀ (L : Nat) (X : List Byte), X.length ≤ L → ∀ (Q : List Byte) (h : σ),
    foldBlocks compress bs h (X ++ Q)
      = foldBlocks compress bs (foldBlocks compress bs h X)
          (X.drop (bs * (X.length / bs)) ++ Q) := by
  intro L
  induction L with
  | zero =>
    intro X hlen Q h
    have hX : X = [] := List.eq_nil_of_length_eq_zero (by omega)
    subst hX
    rw [foldBlocks_small compress bs h [] (by simp only [List.length_nil]; omega)]
    simp
  | succ L ih =>
    intro X hlen Q h
    by_cases hc : bs ≤ X.length
    · have htake : (X ++ Q).take bs = X.take bs := by
        rw [List.take_append_eq_append_take, Nat.sub_eq_zero_of_le hc, List.take_zero,
          List.append_nil]
      have hdrop : (X ++ Q).drop bs = X.drop bs ++ Q := by
        rw [List.drop_append_eq_append_drop, Nat.sub_eq_zero_of_le hc, List.drop_zero]
      rw [foldBlocks_step compress bs h (X ++ Q) hbs
            (by simp only [List.length_append]; omega), htake, hdrop,
        ih (X.drop bs) (by simp only [List.length_drop]; omega),
        foldBlocks_step compress bs h X hbs hc]
      have hdiv : X.length / bs = (X.drop bs).length / bs + 1 := by
        rw [List.length_drop, Nat.div_eq_sub_div hbs hc]
      rw [hdiv, Nat.mul_add, Nat.mul_one, Nat.add_comm (bs * _) bs, ← List.drop_drop]
    · rw [foldBlocks_small compress bs h X (by omega),
        Nat.div_eq_of_lt (by omega), Nat.mul_zero, List.drop_zero]

theorem foldBlocks_append {σ : Type} (compress : σ → List Byte → σ) (bs : Nat)
    (hbs : 0 < bs) (X Q : List Byte) (h : σ) :
    foldBlocks compress bs h (X ++ Q)
      = foldBlocks compress bs (foldBlocks compress bs h X)
          (X.drop (bs * (X.length / bs)) ++ Q) :=
  foldBlocks_append_aux compress bs hbs X.length X (Nat.le_refl _) Q h

/-- The state reached from `initialize` by feeding the byte stream `fed`
(in any chunking): all complete blocks are compressed, `m_numBytes`
counts them, the remainder sits in the buffer. -/
def mdRun {σ : Type} (compress : σ → List Byte → σ) (bs : Nat) (h0 : σ)
    (fed : List Byte) : MdState σ :=
  ⟨foldBlocks compress bs h0 fed,
   bs * (fed.length / bs),
   fed.drop (bs * (fed.length / bs))⟩

theorem mdRun_nil {σ : Type} (compress : σ → List Byte → σ) (bs : Nat)
    (hbs : 0 < bs) (h0 : σ) : mdRun compress bs h0 [] = ⟨h0, 0, []⟩ := by
  unfold mdRun
  rw [foldBlocks_small compress bs h0 [] (by simp only [List.length_nil]; omega)]
  simp

theorem mdRun_buffer_lt {σ : Type} (compress : σ → List Byte → σ) (bs : Nat)
    (hbs : 0 < bs) (h0 : σ) (fed : List Byte) :
    (mdRun compress bs h0 fed).buffer.length < bs := by
  unfold mdRun
  simp only [List.length_drop]
  have h1 := Nat.div_add_mod fed.length bs
  have h2 := Nat.mod_lt fed.length hbs
  omega

theorem mdRun_update {σ : Type} (compress : σ → List Byte → σ) (bs : Nat)
    (hbs : 0 < bs) (h0 : σ) (A B : List Byte) :
    hashCoreG compress bs (mdRun compress bs h0 A) B = mdRun compress bs h0 (A ++ B) := by
  rw [hashCoreG_eq compress bs hbs _ B (mdRun_buffer_lt compress bs hbs h0 A)]
  unfold mdRun
  simp only [List.length_drop, List.length_append]
  have h1 := Nat.div_add_mod A.length bs
  have h2 := Nat.mod_lt A.length hbs
  have hdiv : (A.length - bs * (A.length / bs) + B.length) / bs + A.length / bs
      = (A.length + B.length) / bs := by
    have h3 : A.length - bs * (A.length / bs) = A.length % bs := by omega
    rw [h3, ← Nat.add_mul_div_left (A.length % bs + B.length) (A.length / bs) hbs]
    refine congrArg (· / bs) ?_
    omega
  have hXd : (A.drop (bs * (A.length / bs)) ++ B)
      = (A ++ B).drop (bs * (A.length / bs)) := by
    rw [List.drop_append_eq_append_drop, Nat.sub_eq_zero_of_le (by omega), List.drop_zero]
  simp only [MdState.mk.injEq]
  refine ⟨?_, ?_, ?_⟩
  · rw [foldBlocks_append compress bs hbs A B h0]
  · rw [← hdiv, Nat.mul_add]
    omega
  · rw [hXd, List.drop_drop, ← hdiv, Nat.mul_add]
    refine congrArg (fun k => (A ++ B).drop k) ?_
    omega

/-- Feeding a list of chunks one `hashCore` call at a time reaches the
canonical state of their concatenation. -/
theorem mdRun_chunks {σ : Type} (compress : σ → List Byte → σ) (bs : Nat)
    (hbs : 0 < bs) (h0 : σ) :
    ∀ (chunks : List (List Byte)) (A : List Byte),
    List.foldl (hashCoreG compress bs) (mdRun compress bs h0 A) chunks
      = mdRun compress bs h0 (A ++ chunks.flatten) := by
  intro chunks
  induction chunks with
  | nil => intro A; simp
  | cons c rest ih =>
    intro A
    rw [List.foldl_cons, mdRun_update compress bs hbs h0 A c, ih (A ++ c),
      List.flatten_cons, List.append_assoc]

/-! ## Merkle–Damgård padding (`processBuffer`)

`Md5::processBuffer`, `Sha1::processBuffer` and `Sha256::processBuffer`
are textually identical except for the byte order of the appended
64-bit message length; `mdPadBlocks encodeLen` is that common body,
returning the one or two 64-byte blocks handed to `processBlock`.
The definition assumes the `m_bufferSize < BLOCK_SIZE` invariant that
holds whenever `processBuffer` is reached (its `else extra[0] = 128`
branch is dead under that invariant). -/
def mdPadBlocks (encodeLen : Nat → List Byte) (buf : List Byte) (numBytes : Nat) :
    List (List Byte) :=
  let bufferSize := buf.length
  -- number of bits, plus one bit set to 1 (always appended)
  let paddedLength0 := bufferSize * 8 + 1
  -- number of bits must be (numBits % 512) = 448
  let lower11Bits := paddedLength0 % 512
  let paddedLengthBits :=
    if lower11Bits ≤ 448 then paddedLength0 + (448 - lower11Bits)
    else paddedLength0 + (512 + 448 - lower11Bits)
  -- convert from bits to bytes
  let paddedLength := paddedLengthBits / 8
  -- message length in bits as a 64-bit number
  let msgBits := (8 * (numBytes + bufferSize)) % 2 ^ 64
  -- append a "1" bit (byte 128) and zero-fill `m_buffer` to BLOCK_SIZE
  let buffer1 := buf ++ (128 : Byte) :: List.replicate (64 - (bufferSize + 1)) 0
  if paddedLength < 64 then
    -- length written into `m_buffer` at offset `paddedLength`
    [buffer1.take paddedLength ++ encodeLen msgBits ++ buffer1.drop (paddedLength + 8)]
  else
    -- length written into `extra` at offset `paddedLength - BLOCK_SIZE`
    buffer1 ::
      (if paddedLength > 64 then [List.replicate (paddedLength - 64) 0 ++ encodeLen msgBits]
       else [])

/-! ## MD5 (`keeg::hashing::cryptographic::Md5`) -/

namespace Md5

/-- The four 32-bit registers `m_hash[0..3]`. -/
structure Regs where
  h0 : Nat
  h1 : Nat
  h2 : Nat
  h3 : Nat
deriving DecidableEq

/-- `f1` of `md5.hpp`: `d ^ (b & (c ^ d))`. -/
def f1 (b c d : Nat) : Nat := d ^^^ (b &&& (c ^^^ d))

/-- `f2` of `md5.hpp`: `c ^ (d & (b ^ c))`. -/
def f2 (b c d : Nat) : Nat := c ^^^ (d &&& (b ^^^ c))

/-- `f3` of `md5.hpp`: `b ^ c ^ d`. -/
def f3 (b c d : Nat) : Nat := b ^^^ c ^^^ d

/-- `f4` of `md5.hpp`: `c ^ (b | ~d)`. -/
def f4 (b c d : Nat) : Nat := c ^^^ (b ||| not32 d)

/-- One line of `Md5::processBlock`:
`a = rotateLeft(a + f(b,c,d) + word + K, r) + b`, after which the roles
rotate to `(d, a, b, c)` for the next line. -/
def round (f : Nat → Nat → Nat → Nat) (st : Nat × Nat × Nat × Nat)
    (w k r : Nat) : Nat × Nat × Nat × Nat :=
  (st.2.2.2,
   add32 (rotl32 ((st.1 + f st.2.1 st.2.2.1 st.2.2.2 + w + k) % 2 ^ 32) r) st.2.1,
   st.2.1, st.2.2.1)

/-- The 64 steps of `Md5::processBlock` in source order: mixing
function, message-word index, additive constant, rotation amount. -/
def steps : List ((Nat → Nat → Nat → Nat) × Nat × Nat × Nat) :=
  [(f1,  0, 0xd76aa478,  7), (f1,  1, 0xe8c7b756, 12), (f1,  2, 0x242070db, 17), (f1,  3, 0xc1bdceee, 22),
   (f1,  4, 0xf57c0faf,  7), (f1,  5, 0x4787c62a, 12), (f1,  6, 0xa8304613, 17), (f1,  7, 0xfd469501, 22),
   (f1,  8, 0x698098d8,  7), (f1,  9, 0x8b44f7af, 12), (f1, 10, 0xffff5bb1, 17), (f1, 11, 0x895cd7be, 22),
   (f1, 12, 0x6b901122,  7), (f1, 13, 0xfd987193, 12), (f1, 14, 0xa679438e, 17), (f1, 15, 0x49b40821, 22),
   (f2,  1, 0xf61e2562,  5), (f2,  6, 0xc040b340,  9), (f2, 11, 0x265e5a51, 14), (f2,  0, 0xe9b6c7aa, 20),
   (f2,  5, 0xd62f105d,  5), (f2, 10, 0x02441453,  9), (f2, 15, 0xd8a1e681, 14), (f2,  4, 0xe7d3fbc8, 20),
   (f2,  9, 0x21e1cde6,  5), (f2, 14, 0xc33707d6,  9), (f2,  3, 0xf4d50d87, 14), (f2,  8, 0x455a14ed, 20),
   (f2, 13, 0xa9e3e905,  5), (f2,  2, 0xfcefa3f8,  9), (f2,  7, 0x676f02d9, 14), (f2, 12, 0x8d2a4c8a, 20),
   (f3,  5, 0xfffa3942,  4), (f3,  8, 0x8771f681, 11), (f3, 11, 0x6d9d6122, 16), (f3, 14, 0xfde5380c, 23),
   (f3,  1, 0xa4beea44,  4), (f3,  4, 0x4bdecfa9, 11), (f3,  7, 0xf6bb4b60, 16), (f3, 10, 0xbebfbc70, 23),
   (f3, 13, 0x289b7ec6,  4), (f3,  0, 0xeaa127fa, 11), (f3,  3, 0xd4ef3085, 16), (f3,  6, 0x04881d05, 23),
   (f3,  9, 0xd9d4d039,  4), (f3, 12, 0xe6db99e5, 11), (f3, 15, 0x1fa27cf8, 16), (f3,  2, 0xc4ac5665, 23),
   (f4,  0, 0xf4292244,  6), (f4,  7, 0x432aff97, 10), (f4, 14, 0xab9423a7, 15), (f4,  5, 0xfc93a039, 21),
   (f4, 12, 0x655b59c3,  6), (f4,  3, 0x8f0ccc92, 10), (f4, 10, 0xffeff47d, 15), (f4,  1, 0x85845dd1, 21),
   (f4,  8, 0x6fa87e4f,  6), (f4, 15, 0xfe2ce6e0, 10), (f4,  6, 0xa3014314, 15), (f4, 13, 0x4e0811a1, 21),
   (f4,  4, 0xf7537e82,  6), (f4, 11, 0xbd3af235, 10), (f4,  2, 0x2ad7d2bb, 15), (f4,  9, 0xeb86d391, 21)]

/-- `Md5::processBlock`: read the 64-byte block as sixteen little-endian
32-bit words, run the 64 mixing steps, add the working variables back
into the registers modulo `2^32`. -/
def compress (r : Regs) (block : List Byte) : Regs :=
  let w := fun i => le32 (block.drop (4 * i))
  let fin := steps.foldl (fun st q => round q.1 st (w q.2.1) q.2.2.1 q.2.2.2)
    (r.h0, r.h1, r.h2, r.h3)
  ⟨add32 r.h0 fin.1, add32 r.h1 fin.2.1, add32 r.h2 fin.2.2.1, add32 r.h3 fin.2.2.2⟩

/-- `Md5::m_hashSize` (bits). -/
def hashSize : Nat := 8 * 16

/-- The state set up by the C++ `Md5` re-init member (RFC 1321 initial vector). -/
def initState : MdState Regs :=
  ⟨⟨0x67452301, 0xefcdab89, 0x98badcfe, 0x10325476⟩, 0, []⟩

/-- `Md5::hashCore`. -/
def hashCore (s : MdState Regs) (input : List Byte) : MdState Regs :=
  hashCoreG compress 64 s input

/-- `Md5::processBuffer`: pad and compress the final block(s);
only `m_hash` changes. -/
def processBuffer (s : MdState Regs) : Regs :=
  List.foldl compress s.hash (mdPadBlocks toLE64 s.buffer s.numBytes)

/-- The digest bytes of `Md5::hashFinal`: the raw (little-endian) byte
image of the four registers. -/
def digestBytes (r : Regs) : List Byte :=
  toLE32 r.h0 ++ toLE32 r.h1 ++ toLE32 r.h2 ++ toLE32 r.h3

/-- `Md5::hashFinal`: save `m_hash`, run `processBuffer`, emit the
digest, restore `m_hash`; `m_numBytes`/`m_bufferSize` are untouched. -/
def hashFinal (s : MdState Regs) : List Byte × MdState Regs :=
  let oldHash := s.hash
  let h' := processBuffer s
  (digestBytes h', ⟨oldHash, s.numBytes, s.buffer⟩)

/-- `HashAlgorithm::computeHash` driven by `Md5`:
`initialize(); hashCore(data); hashFinal()`. -/
def computeHash (data : List Byte) : List Byte :=
  (hashFinal (hashCore initState data)).1

end Md5

/-- Big-endian interpretation of four bytes: `endian::swap` applied to a
32-bit little-endian memory read (`convert to big endian` in the SHA
`processBlock`s). -/
def be32 (l : List Byte) : Nat :=
  16777216 * (l.getD 0 0).val + 65536 * (l.getD 1 0).val + 256 * (l.getD 2 0).val +
    (l.getD 3 0).val

/-! ## SHA-1 (`keeg::hashing::cryptographic::Sha1`) -/

namespace Sha1

/-- The five 32-bit registers `m_hash[0..4]`. -/
structure Regs where
  h0 : Nat
  h1 : Nat
  h2 : Nat
  h3 : Nat
  h4 : Nat
deriving DecidableEq

/-- `f1` of `sha1.hpp`: `d ^ (b & (c ^ d))`. -/
def f1 (b c d : Nat) : Nat := d ^^^ (b &&& (c ^^^ d))

/-- `f2` of `sha1.hpp`: `b ^ c ^ d`. -/
def f2 (b c d : Nat) : Nat := b ^^^ c ^^^ d

/-- `f3` of `sha1.hpp`: `(b & c) | (b & d) | (c & d)`. -/
def f3 (b c d : Nat) : Nat := (b &&& c) ||| (b &&& d) ||| (c &&& d)

/-- The first `n` entries of the 80-word message schedule `words[]`:
sixteen big-endian words of the block, then the XOR-rotate recurrence. -/
def words (block : List Byte) : Nat → List Nat
  | 0 => []
  | i + 1 =>
    let prev := words block i
    prev ++ [if i < 16 then be32 (block.drop (4 * i))
             else rotl32 ((prev.getD (i - 3) 0) ^^^ (prev.getD (i - 8) 0) ^^^
                          (prev.getD (i - 14) 0) ^^^ (prev.getD (i - 16) 0)) 1]

/-- One line of a `Sha1::processBlock` round:
`e += rotateLeft(a,5) + f(b,c,d) + words[i] + K; b = rotateLeft(b,30)`,
after which the roles rotate to `(e, a, b, c, d)`. -/
def round (f : Nat → Nat → Nat → Nat) (k : Nat)
    (st : Nat × Nat × Nat × Nat × Nat) (w : Nat) : Nat × Nat × Nat × Nat × Nat :=
  ((st.2.2.2.2 + rotl32 st.1 5 + f st.2.1 st.2.2.1 st.2.2.2.1 + w + k) % 2 ^ 32,
   st.1, rotl32 st.2.1 30, st.2.2.1, st.2.2.2.1)

/-- Mixing function and round constant for step `i` (four groups of 20). -/
def roundSpec (i : Nat) : (Nat → Nat → Nat → Nat) × Nat :=
  if i < 20 then (f1, 0x5a827999)
  else if i < 40 then (f2, 0x6ed9eba1)
  else if i < 60 then (f3, 0x8f1bbcdc)
  else (f2, 0xca62c1d6)

/-- `Sha1::processBlock`. -/
def compress (r : Regs) (block : List Byte) : Regs :=
  let ws := words block 80
  let fin := (List.range 80).foldl
    (fun st i => round (roundSpec i).1 (roundSpec i).2 st (ws.getD i 0))
    (r.h0, r.h1, r.h2, r.h3, r.h4)
  ⟨add32 r.h0 fin.1, add32 r.h1 fin.2.1, add32 r.h2 fin.2.2.1,
   add32 r.h3 fin.2.2.2.1, add32 r.h4 fin.2.2.2.2⟩

/-- `Sha1::m_hashSize` (bits). -/
def hashSize : Nat := 8 * 20

/-- The state set up by the C++ `Sha1` re-init member. -/
def initState : MdState Regs :=
  ⟨⟨0x67452301, 0xefcdab89, 0x98badcfe, 0x10325476, 0xc3d2e1f0⟩, 0, []⟩

/-- `Sha1::hashCore`. -/
def hashCore (s : MdState Regs) (input : List Byte) : MdState Regs :=
  hashCoreG compress 64 s input

/-- `Sha1::processBuffer` (big-endian length field). -/
def processBuffer (s : MdState Regs) : Regs :=
  List.foldl compress s.hash (mdPadBlocks toBE64 s.buffer s.numBytes)

/-- The digest bytes of `Sha1::hashFinal`: each register emitted most
significant byte first. -/
def digestBytes (r : Regs) : List Byte :=
  toBE32 r.h0 ++ toBE32 r.h1 ++ toBE32 r.h2 ++ toBE32 r.h3 ++ toBE32 r.h4

/-- `Sha1::hashFinal`: compute the digest over the padded stream and
restore the pre-call registers. -/
def hashFinal (s : MdState Regs) : List Byte × MdState Regs :=
  let oldHash := s.hash
  let h' := processBuffer s
  (digestBytes h', ⟨oldHash, s.numBytes, s.buffer⟩)

/-- `HashAlgorithm::computeHash` driven by `Sha1`. -/
def computeHash (data : List Byte) : List Byte :=
  (hashFinal (hashCore initState data)).1

end Sha1

/-! ## SHA-256 (`keeg::hashing::Sha256`) -/

namespace Sha256

/-- The eight 32-bit registers `m_hash[0..7]`. -/
structure Regs where
  h0 : Nat
  h1 : Nat
  h2 : Nat
  h3 : Nat
  h4 : Nat
  h5 : Nat
  h6 : Nat
  h7 : Nat
deriving DecidableEq

/-- `f1` of `sha256.hpp`: Σ1 rotations of `e` plus the choose term. -/
def f1 (e f g : Nat) : Nat :=
  ((rotr32 e 6 ^^^ rotr32 e 11 ^^^ rotr32 e 25) + ((e &&& f) ^^^ (not32 e &&& g))) % 2 ^ 32

/-- `f2` of `sha256.hpp`: Σ0 rotations of `a` plus the majority term. -/
def f2 (a b c : Nat) : Nat :=
  ((rotr32 a 2 ^^^ rotr32 a 13 ^^^ rotr32 a 22) + (((a ||| b) &&& c) ||| (a &&& b))) % 2 ^ 32

/-- The 64 round constants of `Sha256::processBlock`, in source order
(rows of eight, appended in order). -/
def constants : List Nat :=
  [0x428a2f98, 0x71374491, 0xb5c0fbcf, 0xe9b5dba5, 0x3956c25b, 0x59f111f1, 0x923f82a4, 0xab1c5ed5]
  ++ [0xd807aa98, 0x12835b01, 0x243185be, 0x550c7dc3, 0x72be5d74, 0x80deb1fe, 0x9bdc06a7, 0xc19bf174]
  ++ [0xe49b69c1, 0xefbe4786, 0x0fc19dc6, 0x240ca1cc, 0x2de92c6f, 0x4a7484aa, 0x5cb0a9dc, 0x76f988da]
  ++ [0x983e5152, 0xa831c66d, 0xb00327c8, 0xbf597fc7, 0xc6e00bf3, 0xd5a79147, 0x06ca6351, 0x14292967]
  ++ [0x27b70a85, 0x2e1b2138, 0x4d2c6dfc, 0x53380d13, 0x650a7354, 0x766a0abb, 0x81c2c92e, 0x92722c85]
  ++ [0xa2bfe8a1, 0xa81a664b, 0xc24b8b70, 0xc76c51a3, 0xd192e819, 0xd6990624, 0xf40e3585, 0x106aa070]
  ++ [0x19a4c116, 0x1e376c08, 0x2748774c, 0x34b0bcb5, 0x391c0cb3, 0x4ed8aa4a, 0x5b9cca4f, 0x682e6ff3]
  ++ [0x748f82ee, 0x78a5636f, 0x84c87814, 0x8cc70208, 0x90befffa, 0xa4506ceb, 0xbef9a3f7, 0xc67178f2]

/-- The first `n` entries of the 64-word message schedule `words[]`:
sixteen big-endian words of the block, then the sigma recurrence. -/
def words (block : List Byte) : Nat → List Nat
  | 0 => []
  | i + 1 =>
    let prev := words block i
    prev ++ [if i < 16 then be32 (block.drop (4 * i))
             else
               let w15 := prev.getD (i - 15) 0
               let w2 := prev.getD (i - 2) 0
               (prev.getD (i - 16) 0 +
                (rotr32 w15 7 ^^^ rotr32 w15 18 ^^^ (w15 >>> 3)) +
                prev.getD (i - 7) 0 +
                (rotr32 w2 17 ^^^ rotr32 w2 19 ^^^ (w2 >>> 10))) % 2 ^ 32]

/-- One line of `Sha256::processBlock`:
`x = h + f1(e,f,g) + K + w; y = f2(a,b,c); d += x; h = x + y`, after
which the roles rotate to `(h, a, b, c, d, e, f, g)`. -/
def round (st : Nat × Nat × Nat × Nat × Nat × Nat × Nat × Nat)
    (k w : Nat) : Nat × Nat × Nat × Nat × Nat × Nat × Nat × Nat :=
  let a := st.1
  let b := st.2.1
  let c := st.2.2.1
  let d := st.2.2.2.1
  let e := st.2.2.2.2.1
  let f := st.2.2.2.2.2.1
  let g := st.2.2.2.2.2.2.1
  let h := st.2.2.2.2.2.2.2
  let x := (h + f1 e f g + k + w) % 2 ^ 32
  let y := f2 a b c
  ((x + y) % 2 ^ 32, a, b, c, (d + x) % 2 ^ 32, e, f, g)

/-- `Sha256::processBlock`. -/
def compress (r : Regs) (block : List Byte) : Regs :=
  let ws := words block 64
  let fin := (List.range 64).foldl
    (fun st i => round st (constants.getD i 0) (ws.getD i 0))
    (r.h0, r.h1, r.h2, r.h3, r.h4, r.h5, r.h6, r.h7)
  ⟨add32 r.h0 fin.1, add32 r.h1 fin.2.1, add32 r.h2 fin.2.2.1, add32 r.h3 fin.2.2.2.1,
   add32 r.h4 fin.2.2.2.2.1, add32 r.h5 fin.2.2.2.2.2.1, add32 r.h6 fin.2.2.2.2.2.2.1,
   add32 r.h7 fin.2.2.2.2.2.2.2⟩

/-- `Sha256::m_hashSize` (bits). -/
def hashSize : Nat := 8 * 32

/-- The state set up by the C++ `Sha256` re-init member. -/
def initState : MdState Regs :=
  ⟨⟨0x6a09e667, 0xbb67ae85, 0x3c6ef372, 0xa54ff53a,
    0x510e527f, 0x9b05688c, 0x1f83d9ab, 0x5be0cd19⟩, 0, []⟩

/-- `Sha256::hashCore`. -/
def hashCore (s : MdState Regs) (input : List Byte) : MdState Regs :=
  hashCoreG compress 64 s input

/-- `Sha256::processBuffer` (big-endian length field). -/
def processBuffer (s : MdState Regs) : Regs :=
  List.foldl compress s.hash (mdPadBlocks toBE64 s.buffer s.numBytes)

/-- The digest bytes of `Sha256::hashFinal`: each register emitted most
significant byte first. -/
def digestBytes (r : Regs) : List Byte :=
  toBE32 r.h0 ++ toBE32 r.h1 ++ toBE32 r.h2 ++ toBE32 r.h3 ++
  toBE32 r.h4 ++ toBE32 r.h5 ++ toBE32 r.h6 ++ toBE32 r.h7

/-- `Sha256::hashFinal`: compute the digest over the padded stream and
restore the pre-call registers. -/
def hashFinal (s : MdState Regs) : List Byte × MdState Regs :=
  let oldHash := s.hash
  let h' := processBuffer s
  (digestBytes h', ⟨oldHash, s.numBytes, s.buffer⟩)

/-- `HashAlgorithm::computeHash` driven by `Sha256`. -/
def computeHash (data : List Byte) : List Byte :=
  (hashFinal (hashCore initState data)).1

end Sha256

/-! ## SHA-3 (`keeg::hashing::cryptographic::Sha3`) -/

namespace Sha3

/-- The 24 `XorMasks` round constants, in source order. -/
def xorMasks : List Nat :=
  [0x0000000000000001, 0x0000000000008082, 0x800000000000808a,
   0x8000000080008000, 0x000000000000808b, 0x0000000080000001,
   0x8000000080008081, 0x8000000000008009, 0x000000000000008a,
   0x0000000000000088, 0x0000000080008009, 0x000000008000000a,
   0x000000008000808b, 0x800000000000008b, 0x8000000000008089,
   0x8000000000008003, 0x8000000000008002, 0x8000000000000080,
   0x000000000000800a, 0x800000008000000a, 0x8000000080008081,
   0x8000000000008080, 0x0000000080000001, 0x8000000080008008]

/-- `mod5` of `sha3.hpp`: `x % 5` for `0 <= x <= 9`. -/
def mod5 (x : Nat) : Nat := if x < 5 then x else x - 5

/-- The Theta step of a Keccak-f round. -/
def theta (A : List Nat) : List Nat :=
  let c := fun i => A.getD i 0 ^^^ A.getD (i + 5) 0 ^^^ A.getD (i + 10) 0 ^^^
    A.getD (i + 15) 0 ^^^ A.getD (i + 20) 0
  let d := fun i => c (mod5 (i + 4)) ^^^ rotl64 (c (mod5 (i + 1))) 1
  (List.range 25).map (fun j => A.getD j 0 ^^^ d (j % 5))

/-- The Rho-Pi lane moves of `Sha3::processBlock`, read off its swap
chain: each entry is (destination lane, source lane, rotation). -/
def rhoPiMoves : List (Nat × Nat × Nat) :=
  [(10, 1, 1), (7, 10, 3), (11, 7, 6), (17, 11, 10), (18, 17, 15), (3, 18, 21),
   (5, 3, 28), (16, 5, 36), (8, 16, 45), (21, 8, 55), (24, 21, 2), (4, 24, 14),
   (15, 4, 27), (23, 15, 41), (19, 23, 56), (13, 19, 8), (12, 13, 25), (2, 12, 43),
   (20, 2, 62), (14, 20, 18), (22, 14, 39), (9, 22, 61), (6, 9, 20), (1, 6, 44)]

/-- The Rho-Pi step: lane 0 is fixed, every other lane receives a
rotated source lane. -/
def rhoPi (A : List Nat) : List Nat :=
  (List.range 25).map (fun j =>
    match rhoPiMoves.find? (fun m => m.1 == j) with
    | some m => rotl64 (A.getD m.2.1 0) m.2.2
    | none => A.getD j 0)

/-- The Chi step, per 5-lane row, all reads from the pre-step values
(as in the source, where each line reads lanes it has not yet written). -/
def chi (A : List Nat) : List Nat :=
  (List.range 25).map (fun j =>
    let r := 5 * (j / 5)
    let o := j % 5
    A.getD j 0 ^^^ (A.getD (r + (o + 2) % 5) 0 &&& not64 (A.getD (r + (o + 1) % 5) 0)))

/-- One Keccak-f round: Theta, Rho-Pi, Chi, Iota. -/
def keccakRound (rc : Nat) (A : List Nat) : List Nat :=
  let B := chi (rhoPi (theta A))
  B.set 0 (B.getD 0 0 ^^^ rc)

/-- The 24-round Keccak-f[1600] permutation (the `re-compute state`
loop of `Sha3::processBlock`). -/
def keccakP (A : List Nat) : List Nat :=
  xorMasks.foldl (fun A rc => keccakRound rc A) A

/-- `Sha3::processBlock`: XOR the rate-sized block into the first
`blockSize/8` lanes as little-endian 64-bit words, then permute. -/
def processBlock (bs : Nat) (A : List Nat) (block : List Byte) : List Nat :=
  keccakP ((List.range 25).map (fun i =>
    if i < bs / 8 then A.getD i 0 ^^^ le64 (block.drop (8 * i)) else A.getD i 0))

/-- `Sha3::m_blockSize`: `200 - 2 * (bits / 8)`. -/
def blockSize (bits : Nat) : Nat := 200 - 2 * (bits / 8)

/-- The state set up by the C++ `Sha3` re-init member: 25 zero lanes. -/
def initState : MdState (List Nat) := ⟨List.replicate 25 0, 0, []⟩

/-- `Sha3::hashCore` for the variant with `bits` output bits. -/
def hashCore (bits : Nat) (s : MdState (List Nat)) (input : List Byte) :
    MdState (List Nat) :=
  hashCoreG (processBlock (blockSize bits)) (blockSize bits) s input

/-- Byte `128` (the multi-rate padding bit). -/
def b128 : Byte := ⟨128, by omega⟩

/-- OR of two bytes (`m_buffer[offset - 1] |= 0x80`). -/
def orB (b c : Byte) : Byte :=
  ⟨b.val ||| c.val, by
    have h := Nat.or_lt_two_pow (x := b.val) (y := c.val) (n := 8)
      (by omega) (by omega)
    omega⟩

/-- The padding block built by `Sha3::processBuffer`: append `0x06`,
zero-fill to the rate, OR `0x80` into the last byte. -/
def padBlock (bs : Nat) (buf : List Byte) : List Byte :=
  let p := buf ++ (0x06 : Byte) :: List.replicate (bs - (buf.length + 1)) 0
  p.take (bs - 1) ++ [orB (p.getD (bs - 1) 0) b128]

/-- `Sha3::processBuffer`: absorb the padding block (the lane state is
permanently advanced; nothing is restored). -/
def processBuffer (bs : Nat) (s : MdState (List Nat)) : List Nat :=
  processBlock bs s.hash (padBlock bs s.buffer)

/-- `Sha3::hashFinal`: absorb the padding block, then squeeze the first
`hashSize()/8` bytes of the lane state in native little-endian order.
The mutated lanes remain in the state (no save/restore). -/
def hashFinal (bits : Nat) (s : MdState (List Nat)) : List Byte × MdState (List Nat) :=
  let h' := processBuffer (blockSize bits) s
  ((h'.map toLE64).flatten.take (bits / 8), ⟨h', s.numBytes, s.buffer⟩)

/-- `HashAlgorithm::computeHash` driven by `Sha3`. -/
def computeHash (bits : Nat) (data : List Byte) : List Byte :=
  (hashFinal bits (hashCore bits initState data)).1

end Sha3

/-! ## Bitwise helper lemmas for the CRC development -/

theorem xor_shiftRight_distrib (x y n : Nat) : (x ^^^ y) >>> n = x >>> n ^^^ y >>> n :=
  Nat.eq_of_testBit_eq fun i => by
    simp [Nat.testBit_shiftRight, Nat.testBit_xor]

theorem xor_shiftLeft_distrib (x y n : Nat) : (x ^^^ y) <<< n = x <<< n ^^^ y <<< n :=
  Nat.eq_of_testBit_eq fun i => by
    simp only [Nat.testBit_shiftLeft, Nat.testBit_xor]
    by_cases h : n ≤ i <;> simp [h]

/-- Splitting a natural number at bit 8: low byte XOR shifted rest. -/
theorem byte_decomp (x : Nat) : (x &&& 255) ^^^ ((x >>> 8) <<< 8) = x :=
  Nat.eq_of_testBit_eq fun i => by
    simp only [Nat.testBit_xor, Nat.testBit_and, Nat.testBit_shiftLeft,
      Nat.testBit_shiftRight]
    rw [show (255 : Nat) = 2 ^ 8 - 1 by norm_num, Nat.testBit_two_pow_sub_one]
    by_cases h : i < 8
    · have h' : ¬(8 ≤ i) := by omega
      simp [h, h', ge_iff_le]
    · have h8 : 8 ≤ i := by omega
      have hc : 8 + (i - 8) = i := by omega
      simp [h, h8, hc, ge_iff_le]

/-- `b + 256 * y` is the XOR of the byte `b` with the shifted rest. -/
theorem add_mul256_eq_xor (b y : Nat) (hb : b < 256) : b + 256 * y = b ^^^ (y <<< 8) := by
  have h1 : (b + 256 * y) &&& 255 = b := by
    rw [show (255 : Nat) = 2 ^ 8 - 1 by norm_num, Nat.and_pow_two_sub_one_eq_mod]
    omega
  have h2 : (b + 256 * y) >>> 8 = y := by
    rw [Nat.shiftRight_eq_div_pow]
    omega
  have := byte_decomp (b + 256 * y)
  rw [h1, h2] at this
  exact this.symm

/-- Little-endian value of a byte string, in XOR-of-shifted-bytes form. -/
def leXor : List Byte → Nat
  | [] => 0
  | b :: t => b.val ^^^ (leXor t <<< 8)

theorem leXor_append (a b : List Byte) :
    leXor (a ++ b) = leXor a ^^^ (leXor b <<< (8 * a.length)) := by
  induction a with
  | nil => simp [leXor]
  | cons x t ih =>
    simp only [List.cons_append, leXor, List.length_cons, List.append_eq]
    rw [ih, xor_shiftLeft_distrib, ← Nat.shiftLeft_add]
    have h8 : 8 * t.length + 8 = 8 * (t.length + 1) := by ring
    simp [h8, Nat.xor_assoc]

theorem leXor_lt (l : List Byte) : leXor l < 2 ^ (8 * l.length) := by
  induction l with
  | nil => simp [leXor]
  | cons b t ih =>
    simp only [leXor, List.length_cons]
    have h1 : b.val < 2 ^ (8 * (t.length + 1)) := by
      have := b.isLt
      have : (256 : Nat) ≤ 2 ^ (8 * (t.length + 1)) := by
        calc (256 : Nat) = 2 ^ 8 := by norm_num
        _ ≤ 2 ^ (8 * (t.length + 1)) := Nat.pow_le_pow_right (by omega) (by omega)
      omega
    have h2 : leXor t <<< 8 < 2 ^ (8 * (t.length + 1)) := by
      rw [Nat.shiftLeft_eq]
      have : 8 * (t.length + 1) = 8 * t.length + 8 := by ring
      rw [this, Nat.pow_add]
      have := Nat.mul_lt_mul_of_lt_of_le ih
        (Nat.le_refl (2 ^ 8)) (by positivity)
      omega
    exact Nat.xor_lt_two_pow h1 h2

theorem le32_eq_leXor (l : List Byte) : le32 l = leXor (l.take 4) := by
  match l with
  | [] => rfl
  | [b0] =>
    show b0.val + 256 * 0 + 65536 * 0 + 16777216 * 0
      = b0.val ^^^ ((0 : Nat) <<< 8)
    rw [show (0 : Nat) <<< 8 = 0 from rfl, Nat.xor_zero]
    omega
  | [b0, b1] =>
    show b0.val + 256 * b1.val + 65536 * 0 + 16777216 * 0
      = b0.val ^^^ ((b1.val ^^^ ((0 : Nat) <<< 8)) <<< 8)
    rw [show (0 : Nat) <<< 8 = 0 from rfl, Nat.xor_zero,
      ← add_mul256_eq_xor _ _ b0.isLt]
    omega
  | [b0, b1, b2] =>
    show b0.val + 256 * b1.val + 65536 * b2.val + 16777216 * 0
      = b0.val ^^^ ((b1.val ^^^ ((b2.val ^^^ ((0 : Nat) <<< 8)) <<< 8)) <<< 8)
    rw [show (0 : Nat) <<< 8 = 0 from rfl, Nat.xor_zero,
      ← add_mul256_eq_xor _ _ b1.isLt, ← add_mul256_eq_xor _ _ b0.isLt]
    omega
  | b0 :: b1 :: b2 :: b3 :: t =>
    show b0.val + 256 * b1.val + 65536 * b2.val + 16777216 * b3.val
      = b0.val ^^^ ((b1.val ^^^ ((b2.val ^^^ ((b3.val ^^^ ((0 : Nat) <<< 8)) <<< 8)) <<< 8)) <<< 8)
    rw [show (0 : Nat) <<< 8 = 0 from rfl, Nat.xor_zero,
      ← add_mul256_eq_xor _ _ b2.isLt, ← add_mul256_eq_xor _ _ b1.isLt,
      ← add_mul256_eq_xor _ _ b0.isLt]
    omega

/-! ## CRC-32 / CRC-64 (`keeg::hashing::crc::Crc32` / `Crc64`)

Both classes share the table construction and the slicing-by-16
`hashCore` shape; everything below is parametric in the polynomial
(`m_polynomial`), which distinguishes the widths only through its
magnitude. -/

namespace Crc

/-- The inner loop of `initializeTable`:
`entry = (entry >> 1) ^ ((entry & 1) * polynomial)`. -/
def tabStep (poly e : Nat) : Nat := (e >>> 1) ^^^ ((e &&& 1) * poly)

/-- `m_lookupTable[0][i]`: eight `tabStep` iterations on `i`. -/
def tab0 (poly i : Nat) : Nat := (tabStep poly)^[8] i

/-- `m_lookupTable[slice][i]`, built by the recurrence
`table[s][i] = (table[s-1][i] >> 8) ^ table[0][table[s-1][i] & 0xFF]`. -/
def lookupTable (poly : Nat) : Nat → Nat → Nat
  | 0, i => tab0 poly i
  | s + 1, i =>
    (lookupTable poly s i >>> 8) ^^^ tab0 poly (lookupTable poly s i &&& 0xFF)

/-- The classical single-byte table step (the `while (numBytes-- != 0)`
remainder loop): `crc = (crc >> 8) ^ table[0][(crc & 0xFF) ^ *p++]`. -/
def byteStep (poly crc : Nat) (b : Byte) : Nat :=
  (crc >>> 8) ^^^ lookupTable poly 0 ((crc &&& 0xFF) ^^^ b.val)

/-- Proof-side helper: one byte of zero input pushed through the CRC
register, `zstep x = (x >> 8) ^ table[0][x & 0xFF]`. -/
def zstep (poly x : Nat) : Nat := (x >>> 8) ^^^ tab0 poly (x &&& 0xFF)

theorem xor_mix (a b c d : Nat) : (a ^^^ b) ^^^ (c ^^^ d) = (a ^^^ c) ^^^ (b ^^^ d) := by
  simp only [Nat.xor_assoc]
  rw [← Nat.xor_assoc b c d, Nat.xor_comm b c, Nat.xor_assoc c b d]

theorem tabStep_xor (poly i j : Nat) :
    tabStep poly (i ^^^ j) = tabStep poly i ^^^ tabStep poly j := by
  unfold tabStep
  rw [xor_shiftRight_distrib, Nat.and_xor_distrib_right]
  have hmul : ((i &&& 1) ^^^ (j &&& 1)) * poly = (i &&& 1) * poly ^^^ (j &&& 1) * poly := by
    have hi : i &&& 1 ≤ 1 := Nat.and_le_right
    have hj : j &&& 1 ≤ 1 := Nat.and_le_right
    interval_cases h1 : (i &&& 1) <;> interval_cases h2 : (j &&& 1) <;>
      simp [Nat.xor_self, Nat.zero_xor, Nat.xor_zero, Nat.zero_mul, Nat.one_mul]
  rw [hmul]
  exact xor_mix _ _ _ _

theorem tab0_xor (poly i j : Nat) :
    tab0 poly (i ^^^ j) = tab0 poly i ^^^ tab0 poly j := by
  unfold tab0
  induction 8 with
  | zero => simp
  | succ k ih =>
    rw [Function.iterate_succ_apply', Function.iterate_succ_apply',
      Function.iterate_succ_apply', ih, tabStep_xor]

theorem tabStep_zero (poly : Nat) : tabStep poly 0 = 0 := by
  unfold tabStep
  simp

theorem tab0_zero (poly : Nat) : tab0 poly 0 = 0 := by
  unfold tab0
  rw [Function.iterate_fixed (tabStep_zero poly)]

theorem zstep_xor (poly x y : Nat) :
    zstep poly (x ^^^ y) = zstep poly x ^^^ zstep poly y := by
  unfold zstep
  rw [xor_shiftRight_distrib, Nat.and_xor_distrib_right, tab0_xor]
  exact xor_mix _ _ _ _

theorem zstep_shift8 (poly y : Nat) : zstep poly (y <<< 8) = y := by
  unfold zstep
  rw [Nat.shiftLeft_shiftRight,
    show (0xFF : Nat) = 2 ^ 8 - 1 by norm_num, Nat.and_pow_two_sub_one_eq_mod,
    Nat.shiftLeft_eq, Nat.mul_mod_left, tab0_zero, Nat.xor_zero]

theorem zstep_small (poly i : Nat) (hi : i < 256) : zstep poly i = tab0 poly i := by
  unfold zstep
  rw [Nat.shiftRight_eq_div_pow, Nat.div_eq_of_lt (by omega),
    show (0xFF : Nat) = 2 ^ 8 - 1 by norm_num,
    Nat.and_pow_two_sub_one_of_lt_two_pow (by omega), Nat.zero_xor]

theorem zstep_iter_xor (poly : Nat) (k : Nat) :
    ∀ x y, (zstep poly)^[k] (x ^^^ y) = (zstep poly)^[k] x ^^^ (zstep poly)^[k] y := by
  induction k with
  | zero => intro x y; simp
  | succ k ih =>
    intro x y
    rw [Function.iterate_succ_apply, Function.iterate_succ_apply,
      Function.iterate_succ_apply, zstep_xor, ih]

theorem zstep_iter_shift (poly : Nat) :
    ∀ (k : Nat) (y : Nat), (zstep poly)^[k] (y <<< (8 * k)) = y := by
  intro k
  induction k with
  | zero => intro y; simp
  | succ k ih =>
    intro y
    have h8 : 8 * (k + 1) = 8 * k + 8 := by ring
    rw [h8, Nat.shiftLeft_add, Function.iterate_succ_apply, zstep_shift8, ih]

theorem lookupTable_eq_zstep (poly : Nat) :
    ∀ (s i : Nat), lookupTable poly s i = (zstep poly)^[s] (tab0 poly i) := by
  intro s
  induction s with
  | zero => intro i; rfl
  | succ s ih =>
    intro i
    show (lookupTable poly s i >>> 8) ^^^ tab0 poly (lookupTable poly s i &&& 0xFF)
      = (zstep poly)^[s + 1] (tab0 poly i)
    rw [Function.iterate_succ_apply', ← ih]
    rfl

/-- XOR of table lookups over the bytes of `x`, highest slice at the
lowest byte: the normal form shared by every slicing group. -/
def xorLookups (poly : Nat) : Nat → Nat → Nat
  | 0, _ => 0
  | k + 1, x => lookupTable poly k (x &&& 0xFF) ^^^ xorLookups poly k (x >>> 8)

/-- Pushing `k` zero bytes through the register equals the XOR of the
slice lookups of the `k` bytes of `x`. -/
theorem zstep_iter_decomp (poly : Nat) :
    ∀ (k x : Nat), x < 2 ^ (8 * k) →
    (zstep poly)^[k] x = xorLookups poly k x := by
  intro k
  induction k with
  | zero =>
    intro x hx
    interval_cases x
    rfl
  | succ k ih =>
    intro x hx
    have hdec := byte_decomp x
    calc (zstep poly)^[k + 1] x
        = (zstep poly)^[k + 1] ((x &&& 255) ^^^ ((x >>> 8) <<< 8)) := by rw [hdec]
      _ = (zstep poly)^[k + 1] (x &&& 255) ^^^ (zstep poly)^[k + 1] ((x >>> 8) <<< 8) :=
          zstep_iter_xor poly (k + 1) _ _
      _ = (zstep poly)^[k] (zstep poly (x &&& 255))
            ^^^ (zstep poly)^[k] (zstep poly ((x >>> 8) <<< 8)) := by
          rw [Function.iterate_succ_apply, Function.iterate_succ_apply]
      _ = (zstep poly)^[k] (tab0 poly (x &&& 255)) ^^^ (zstep poly)^[k] (x >>> 8) := by
          rw [zstep_small poly _ (by have := Nat.and_le_right (n := x) (m := 255); omega),
            zstep_shift8]
      _ = lookupTable poly k (x &&& 0xFF) ^^^ xorLookups poly k (x >>> 8) := by
          rw [lookupTable_eq_zstep,
            ih (x >>> 8) (by
              rw [Nat.shiftRight_eq_div_pow]
              have h8 : 8 * (k + 1) = 8 * k + 8 := by ring
              rw [h8, Nat.pow_add] at hx
              exact Nat.div_lt_of_lt_mul (by omega))]
      _ = xorLookups poly (k + 1) x := rfl

theorem byteStep_eq_zstep (poly crc : Nat) (b : Byte) :
    byteStep poly crc b = zstep poly (crc ^^^ b.val) := by
  unfold byteStep zstep
  have hb := b.isLt
  have hbz : b.val >>> 8 = 0 := by
    rw [Nat.shiftRight_eq_div_pow]
    omega
  have h1 : (crc ^^^ b.val) >>> 8 = crc >>> 8 := by
    rw [xor_shiftRight_distrib, hbz, Nat.xor_zero]
  have hb' : b.val &&& 0xFF = b.val := by
    rw [show (0xFF : Nat) = 2 ^ 8 - 1 by norm_num]
    exact Nat.and_pow_two_sub_one_of_lt_two_pow (by omega)
  have h2 : (crc ^^^ b.val) &&& 0xFF = (crc &&& 0xFF) ^^^ b.val := by
    rw [Nat.and_xor_distrib_right, hb']
  rw [h1, h2]
  rfl

/-- The slow-path fold in closed form: `zstep` iterated once per byte on
the XOR of the register with the little-endian byte string. -/
theorem foldl_byteStep_eq (poly : Nat) :
    ∀ (l : List Byte) (crc : Nat),
    l.foldl (byteStep poly) crc = (zstep poly)^[l.length] (crc ^^^ leXor l) := by
  intro l
  induction l with
  | nil => intro crc; simp [leXor]
  | cons b t ih =>
    intro crc
    rw [List.foldl_cons, ih, byteStep_eq_zstep]
    show (zstep poly)^[t.length] (zstep poly (crc ^^^ b.val) ^^^ leXor t)
      = (zstep poly)^[t.length + 1] (crc ^^^ leXor (b :: t))
    rw [Function.iterate_succ_apply]
    refine congrArg ((zstep poly)^[t.length]) ?_
    show zstep poly (crc ^^^ b.val) ^^^ leXor t = zstep poly (crc ^^^ (b.val ^^^ leXor t <<< 8))
    conv_rhs => rw [← Nat.xor_assoc, zstep_xor, zstep_shift8]

theorem xor_left_comm (a b c : Nat) : a ^^^ (b ^^^ c) = b ^^^ (a ^^^ c) := by
  rw [← Nat.xor_assoc, Nat.xor_comm a b, Nat.xor_assoc]

theorem zstep_zero (poly : Nat) : zstep poly 0 = 0 := by
  unfold zstep
  simp [tab0_zero]

theorem zstep_iter_zero (poly k : Nat) : (zstep poly)^[k] 0 = 0 :=
  Function.iterate_fixed (zstep_zero poly) k

theorem slice_shift (poly s k i : Nat) :
    (zstep poly)^[s] (lookupTable poly k i) = lookupTable poly (s + k) i := by
  rw [lookupTable_eq_zstep, lookupTable_eq_zstep, ← Function.iterate_add_apply]

/-- Pushing a 32-bit word through `4 + s` zero-byte steps equals the XOR
of four slice lookups at slices `s .. s+3`, highest slice at the lowest
byte. -/
theorem word_group (poly s x : Nat) (hx : x < 2 ^ 32) :
    (zstep poly)^[s + 4] x
      = lookupTable poly s ((x >>> 24) &&& 0xFF) ^^^
        lookupTable poly (s + 1) ((x >>> 16) &&& 0xFF) ^^^
        lookupTable poly (s + 2) ((x >>> 8) &&& 0xFF) ^^^
        lookupTable poly (s + 3) (x &&& 0xFF) := by
  have hx' : x < 2 ^ (8 * 4) := by simpa using hx
  rw [Function.iterate_add_apply, zstep_iter_decomp poly 4 x hx']
  have hs1 : x >>> 8 >>> 8 = x >>> 16 := by
    rw [← Nat.shiftRight_add]
  have hs2 : x >>> 16 >>> 8 = x >>> 24 := by
    rw [← Nat.shiftRight_add]
  simp only [xorLookups, hs1, hs2, Nat.xor_zero]
  simp only [zstep_iter_xor, slice_shift]
  simp [Nat.xor_assoc, Nat.xor_comm, xor_left_comm]

theorem zstep_split4 (poly k u v : Nat) :
    (zstep poly)^[k + 4] (u ^^^ (v <<< 32)) = (zstep poly)^[k] ((zstep poly)^[4] u ^^^ v) := by
  rw [Function.iterate_add_apply]
  have hv : (zstep poly)^[4] (v <<< 32) = v := by
    rw [show (32 : Nat) = 8 * 4 by norm_num]
    exact zstep_iter_shift poly 4 v
  rw [zstep_iter_xor, hv]

theorem zstep_split8 (poly k u v : Nat) :
    (zstep poly)^[k + 8] (u ^^^ (v <<< 64)) = (zstep poly)^[k] ((zstep poly)^[8] u ^^^ v) := by
  rw [Function.iterate_add_apply]
  have hv : (zstep poly)^[8] (v <<< 64) = v := by
    rw [show (64 : Nat) = 8 * 8 by norm_num]
    exact zstep_iter_shift poly 8 v
  rw [zstep_iter_xor, hv]

theorem le32_lt (l : List Byte) : le32 l < 2 ^ 32 := by
  unfold le32
  have h0 := (l.getD 0 0).isLt
  have h1 := (l.getD 1 0).isLt
  have h2 := (l.getD 2 0).isLt
  have h3 := (l.getD 3 0).isLt
  omega

theorem lookupTable_xor (poly s i j : Nat) :
    lookupTable poly s (i ^^^ j) = lookupTable poly s i ^^^ lookupTable poly s j := by
  rw [lookupTable_eq_zstep, lookupTable_eq_zstep, lookupTable_eq_zstep, tab0_xor,
    zstep_iter_xor]

/-- One 16-byte slicing group of `Crc32::hashCore` (little-endian host
branch): four `uint32_t` reads, `one` carrying the running CRC,
sixteen slice lookups XORed together. -/
def step16x32 (poly crc : Nat) (l : List Byte) : Nat :=
  let one := le32 l ^^^ crc
  let two := le32 (l.drop 4)
  let three := le32 (l.drop 8)
  let four := le32 (l.drop 12)
  lookupTable poly 0 ((four >>> 24) &&& 0xFF) ^^^
  lookupTable poly 1 ((four >>> 16) &&& 0xFF) ^^^
  lookupTable poly 2 ((four >>> 8) &&& 0xFF) ^^^
  lookupTable poly 3 (four &&& 0xFF) ^^^
  lookupTable poly 4 ((three >>> 24) &&& 0xFF) ^^^
  lookupTable poly 5 ((three >>> 16) &&& 0xFF) ^^^
  lookupTable poly 6 ((three >>> 8) &&& 0xFF) ^^^
  lookupTable poly 7 (three &&& 0xFF) ^^^
  lookupTable poly 8 ((two >>> 24) &&& 0xFF) ^^^
  lookupTable poly 9 ((two >>> 16) &&& 0xFF) ^^^
  lookupTable poly 10 ((two >>> 8) &&& 0xFF) ^^^
  lookupTable poly 11 (two &&& 0xFF) ^^^
  lookupTable poly 12 ((one >>> 24) &&& 0xFF) ^^^
  lookupTable poly 13 ((one >>> 16) &&& 0xFF) ^^^
  lookupTable poly 14 ((one >>> 8) &&& 0xFF) ^^^
  lookupTable poly 15 (one &&& 0xFF)

set_option maxHeartbeats 1600000 in
/-- The 16-byte slicing group equals sixteen single-byte steps: both
sides are `zstep` iterated 16 times on `crc ^^^` the 16 input bytes. -/
theorem step16x32_eq (poly crc : Nat) (hcrc : crc < 2 ^ 32) (l : List Byte) (hl : l.length = 16) :
    step16x32 poly crc l = (zstep poly)^[16] (crc ^^^ leXor l) := by
  have l4 : (l.take 4).length = 4 := by simp [List.length_take]; omega
  have d4 : (l.drop 4).length = 12 := by simp [List.length_drop]; omega
  have l8 : ((l.drop 4).take 4).length = 4 := by simp [List.length_take, List.length_drop]; omega
  have d8 : ((l.drop 4).drop 4).length = 8 := by simp [List.length_drop]; omega
  have l12 : (((l.drop 4).drop 4).take 4).length = 4 := by
    simp [List.length_take, List.length_drop]; omega
  -- flatten leXor l into four 32-bit words
  have hsplit : leXor l
      = leXor (l.take 4) ^^^
        ((leXor ((l.drop 4).take 4) ^^^
          ((leXor (((l.drop 4).drop 4).take 4) ^^^
            (leXor (((l.drop 4).drop 4).drop 4) <<< 32)) <<< 32)) <<< 32) := by
    conv_lhs => rw [← List.take_append_drop 4 l, leXor_append]
    rw [l4]
    conv_lhs => rw [← List.take_append_drop 4 (l.drop 4), leXor_append]
    rw [l8]
    conv_lhs => rw [← List.take_append_drop 4 ((l.drop 4).drop 4), leXor_append]
    rw [l12]
  rw [hsplit]
  rw [← Nat.xor_assoc]
  rw [show (16 : Nat) = 12 + 4 by norm_num, zstep_split4]
  rw [← Nat.xor_assoc]
  rw [show (12 : Nat) = 8 + 4 by norm_num, zstep_split4]
  rw [← Nat.xor_assoc]
  rw [show (8 : Nat) = 4 + 4 by norm_num, zstep_split4]
  -- expand linearity and regroup the iterates
  simp only [zstep_iter_xor, ← Function.iterate_add_apply]
  simp only [List.drop_drop, show (4 + (4 + (4 + 4)) : Nat) = 16 from rfl,
    show (4 + (4 + 4) : Nat) = 12 from rfl, show (4 + 4 : Nat) = 8 from rfl,
    show (8 + 4 : Nat) = 12 from rfl]
  have h12 : (l.drop 12).take 4 = l.drop 12 :=
    List.take_of_length_le (by simp [List.length_drop]; omega)
  have hvA : leXor (l.take 4) < 2 ^ 32 := by
    have h := leXor_lt (l.take 4)
    rw [l4] at h
    simpa using h
  have hvB : leXor ((l.drop 4).take 4) < 2 ^ 32 := by
    have h := leXor_lt ((l.drop 4).take 4)
    rw [l8] at h
    simpa using h
  have hvC : leXor ((l.drop 8).take 4) < 2 ^ 32 := by
    have h := leXor_lt ((l.drop 8).take 4)
    have hlen : ((l.drop 8).take 4).length = 4 := by
      simp [List.length_take, List.length_drop]; omega
    rw [hlen] at h
    simpa using h
  have hvD : leXor (l.drop 12) < 2 ^ 32 := by
    have h := leXor_lt (l.drop 12)
    have hlen : (l.drop 12).length = 4 := by simp [List.length_drop]; omega
    rw [hlen] at h
    simpa using h
  have wcrc := word_group poly 12 crc hcrc
  have wA := word_group poly 12 (leXor (l.take 4)) hvA
  have wB := word_group poly 8 (leXor ((l.drop 4).take 4)) hvB
  have wC := word_group poly 4 (leXor ((l.drop 8).take 4)) hvC
  have wD := word_group poly 0 (leXor (l.drop 12)) hvD
  simp only [show (12 + 4 : Nat) = 16 from rfl, show (12 + 1 : Nat) = 13 from rfl,
    show (12 + 2 : Nat) = 14 from rfl, show (12 + 3 : Nat) = 15 from rfl,
    show (8 + 4 : Nat) = 12 from rfl, show (8 + 1 : Nat) = 9 from rfl,
    show (8 + 2 : Nat) = 10 from rfl, show (8 + 3 : Nat) = 11 from rfl,
    show (4 + 4 : Nat) = 8 from rfl, show (4 + 1 : Nat) = 5 from rfl,
    show (4 + 2 : Nat) = 6 from rfl, show (4 + 3 : Nat) = 7 from rfl,
    show (0 + 4 : Nat) = 4 from rfl, show (0 + 1 : Nat) = 1 from rfl,
    show (0 + 2 : Nat) = 2 from rfl, show (0 + 3 : Nat) = 3 from rfl]
    at wcrc wA wB wC wD
  rw [wcrc, wA, wB, wC, wD]
  simp only [step16x32, le32_eq_leXor l, le32_eq_leXor (l.drop 4),
    le32_eq_leXor (l.drop 8), le32_eq_leXor (l.drop 12), h12]
  simp only [xor_shiftRight_distrib, Nat.and_xor_distrib_right, lookupTable_xor]
  ac_rfl

/-- `byte_decomp` at an arbitrary bit position. -/
theorem width_decomp (n x : Nat) : (x &&& (2 ^ n - 1)) ^^^ ((x >>> n) <<< n) = x :=
  Nat.eq_of_testBit_eq fun i => by
    simp only [Nat.testBit_xor, Nat.testBit_and, Nat.testBit_shiftLeft,
      Nat.testBit_shiftRight, Nat.testBit_two_pow_sub_one]
    by_cases h : i < n
    · have h' : ¬(n ≤ i) := by omega
      simp [h, h', ge_iff_le]
    · have hn : n ≤ i := by omega
      have hc : n + (i - n) = i := by omega
      simp [h, hn, hc, ge_iff_le]

theorem add_mul_two_pow_eq_xor (n b y : Nat) (hb : b < 2 ^ n) :
    b + 2 ^ n * y = b ^^^ (y <<< n) := by
  have h1 : (b + 2 ^ n * y) &&& (2 ^ n - 1) = b := by
    rw [Nat.and_pow_two_sub_one_eq_mod, Nat.add_mul_mod_self_left, Nat.mod_eq_of_lt hb]
  have h2 : (b + 2 ^ n * y) >>> n = y := by
    rw [Nat.shiftRight_eq_div_pow, Nat.add_mul_div_left _ _ (Nat.pos_pow_of_pos n (by omega)),
      Nat.div_eq_of_lt hb, Nat.zero_add]
  have h := width_decomp n (b + 2 ^ n * y)
  rw [h1, h2] at h
  exact h.symm

theorem le64_eq_leXor (l : List Byte) (hl : 8 ≤ l.length) : le64 l = leXor (l.take 8) := by
  have hsplit : l.take 8 = l.take 4 ++ (l.drop 4).take 4 := by
    conv_lhs => rw [← List.take_append_drop 4 (l.take 8)]
    rw [List.take_take, List.drop_take]
    norm_num
  have hlen4 : (l.take 4).length = 4 := by simp [List.length_take]; omega
  have hbound : le32 l < 2 ^ 32 := le32_lt l
  unfold le64
  rw [show (4294967296 : Nat) = 2 ^ 32 by norm_num,
    add_mul_two_pow_eq_xor 32 _ _ hbound, hsplit, leXor_append, hlen4,
    le32_eq_leXor l, le32_eq_leXor (l.drop 4)]

theorem le64_lt (l : List Byte) : le64 l < 2 ^ 64 := by
  unfold le64
  have h1 := le32_lt l
  have h2 := le32_lt (l.drop 4)
  omega

/-- Pushing a 64-bit word through `8 + s` zero-byte steps equals the XOR
of eight slice lookups at slices `s .. s+7`. -/
theorem word_group8 (poly s x : Nat) (hx : x < 2 ^ 64) :
    (zstep poly)^[s + 8] x
      = lookupTable poly s ((x >>> 56) &&& 0xFF) ^^^
        lookupTable poly (s + 1) ((x >>> 48) &&& 0xFF) ^^^
        lookupTable poly (s + 2) ((x >>> 40) &&& 0xFF) ^^^
        lookupTable poly (s + 3) ((x >>> 32) &&& 0xFF) ^^^
        lookupTable poly (s + 4) ((x >>> 24) &&& 0xFF) ^^^
        lookupTable poly (s + 5) ((x >>> 16) &&& 0xFF) ^^^
        lookupTable poly (s + 6) ((x >>> 8) &&& 0xFF) ^^^
        lookupTable poly (s + 7) (x &&& 0xFF) := by
  have hx' : x < 2 ^ (8 * 8) := by simpa using hx
  rw [Function.iterate_add_apply, zstep_iter_decomp poly 8 x hx']
  have hs1 : x >>> 8 >>> 8 = x >>> 16 := by rw [← Nat.shiftRight_add]
  have hs2 : x >>> 16 >>> 8 = x >>> 24 := by rw [← Nat.shiftRight_add]
  have hs3 : x >>> 24 >>> 8 = x >>> 32 := by rw [← Nat.shiftRight_add]
  have hs4 : x >>> 32 >>> 8 = x >>> 40 := by rw [← Nat.shiftRight_add]
  have hs5 : x >>> 40 >>> 8 = x >>> 48 := by rw [← Nat.shiftRight_add]
  have hs6 : x >>> 48 >>> 8 = x >>> 56 := by rw [← Nat.shiftRight_add]
  simp only [xorLookups, hs1, hs2, hs3, hs4, hs5, hs6, Nat.xor_zero]
  simp only [zstep_iter_xor, slice_shift]
  ac_rfl

/-- One 16-byte slicing group of `Crc64::hashCore` (little-endian host
branch): two `uint64_t` reads, `one` carrying the running CRC,
sixteen slice lookups XORed together. -/
def step16x64 (poly crc : Nat) (l : List Byte) : Nat :=
  let one := le64 l ^^^ crc
  let two := le64 (l.drop 8)
  lookupTable poly 0 ((two >>> 56) &&& 0xFF) ^^^
  lookupTable poly 1 ((two >>> 48) &&& 0xFF) ^^^
  lookupTable poly 2 ((two >>> 40) &&& 0xFF) ^^^
  lookupTable poly 3 ((two >>> 32) &&& 0xFF) ^^^
  lookupTable poly 4 ((two >>> 24) &&& 0xFF) ^^^
  lookupTable poly 5 ((two >>> 16) &&& 0xFF) ^^^
  lookupTable poly 6 ((two >>> 8) &&& 0xFF) ^^^
  lookupTable poly 7 (two &&& 0xFF) ^^^
  lookupTable poly 8 ((one >>> 56) &&& 0xFF) ^^^
  lookupTable poly 9 ((one >>> 48) &&& 0xFF) ^^^
  lookupTable poly 10 ((one >>> 40) &&& 0xFF) ^^^
  lookupTable poly 11 ((one >>> 32) &&& 0xFF) ^^^
  lookupTable poly 12 ((one >>> 24) &&& 0xFF) ^^^
  lookupTable poly 13 ((one >>> 16) &&& 0xFF) ^^^
  lookupTable poly 14 ((one >>> 8) &&& 0xFF) ^^^
  lookupTable poly 15 (one &&& 0xFF)

set_option maxHeartbeats 1600000 in
/-- The 16-byte slicing group of the CRC-64 core equals sixteen
single-byte steps. -/
theorem step16x64_eq (poly crc : Nat) (hcrc : crc < 2 ^ 64) (l : List Byte)
    (hl : l.length = 16) :
    step16x64 poly crc l = (zstep poly)^[16] (crc ^^^ leXor l) := by
  have l8 : (l.take 8).length = 8 := by simp [List.length_take]; omega
  have d8 : (l.drop 8).length = 8 := by simp [List.length_drop]; omega
  have hsplit : leXor l
      = leXor (l.take 8) ^^^ (leXor (l.drop 8) <<< 64) := by
    conv_lhs => rw [← List.take_append_drop 8 l, leXor_append]
    rw [l8]
  rw [hsplit, ← Nat.xor_assoc, show (16 : Nat) = 8 + 8 by norm_num, zstep_split8]
  simp only [zstep_iter_xor, ← Function.iterate_add_apply,
    show (8 + 8 : Nat) = 16 from rfl]
  have hvA : leXor (l.take 8) < 2 ^ 64 := by
    have h := leXor_lt (l.take 8)
    rw [l8] at h
    simpa using h
  have hvB : leXor (l.drop 8) < 2 ^ 64 := by
    have h := leXor_lt (l.drop 8)
    rw [d8] at h
    simpa using h
  have wcrc := word_group8 poly 8 crc hcrc
  have wA := word_group8 poly 8 (leXor (l.take 8)) hvA
  have wB := word_group8 poly 0 (leXor (l.drop 8)) hvB
  simp only [show (8 + 8 : Nat) = 16 from rfl, show (8 + 1 : Nat) = 9 from rfl,
    show (8 + 2 : Nat) = 10 from rfl, show (8 + 3 : Nat) = 11 from rfl,
    show (8 + 4 : Nat) = 12 from rfl, show (8 + 5 : Nat) = 13 from rfl,
    show (8 + 6 : Nat) = 14 from rfl, show (8 + 7 : Nat) = 15 from rfl,
    show (0 + 1 : Nat) = 1 from rfl, show (0 + 2 : Nat) = 2 from rfl,
    show (0 + 3 : Nat) = 3 from rfl, show (0 + 4 : Nat) = 4 from rfl,
    show (0 + 5 : Nat) = 5 from rfl, show (0 + 6 : Nat) = 6 from rfl,
    show (0 + 7 : Nat) = 7 from rfl, show (0 + 8 : Nat) = 8 from rfl]
    at wcrc wA wB
  rw [wcrc, wA, wB]
  have htk : (l.drop 8).take 8 = l.drop 8 := List.take_of_length_le (by omega)
  simp only [step16x64, le64_eq_leXor l (by omega), le64_eq_leXor (l.drop 8) (by omega), htk]
  simp only [xor_shiftRight_distrib, Nat.and_xor_distrib_right, lookupTable_xor]
  ac_rfl

theorem tabStep_lt (w poly e : Nat) (hp : poly < 2 ^ w) (he : e < 2 ^ w) :
    tabStep poly e < 2 ^ w := by
  unfold tabStep
  refine Nat.xor_lt_two_pow ?_ ?_
  · have : e >>> 1 ≤ e := by
      rw [Nat.shiftRight_eq_div_pow]
      exact Nat.div_le_self _ _
    omega
  · have h1 : e &&& 1 ≤ 1 := Nat.and_le_right
    have : (e &&& 1) * poly ≤ poly := by
      calc (e &&& 1) * poly ≤ 1 * poly := Nat.mul_le_mul_right poly h1
      _ = poly := Nat.one_mul poly
    omega

theorem tab0_lt (w poly i : Nat) (hp : poly < 2 ^ w) (hi : i < 2 ^ w) :
    tab0 poly i < 2 ^ w := by
  unfold tab0
  induction 8 with
  | zero => simpa
  | succ k ih =>
    rw [Function.iterate_succ_apply']
    exact tabStep_lt w poly _ hp ih

theorem byteStep_lt (w poly crc : Nat) (b : Byte) (hw : 8 ≤ w) (hp : poly < 2 ^ w)
    (hc : crc < 2 ^ w) : byteStep poly crc b < 2 ^ w := by
  unfold byteStep
  refine Nat.xor_lt_two_pow ?_ ?_
  · have : crc >>> 8 ≤ crc := by
      rw [Nat.shiftRight_eq_div_pow]
      exact Nat.div_le_self _ _
    omega
  · show lookupTable poly 0 _ < 2 ^ w
    refine tab0_lt w poly _ hp ?_
    have h1 : crc &&& 0xFF ≤ 0xFF := Nat.and_le_right
    have h2 := b.isLt
    have h3 : (crc &&& 0xFF) ^^^ b.val < 2 ^ 8 := Nat.xor_lt_two_pow (by omega) (by omega)
    have h4 : (2 : Nat) ^ 8 ≤ 2 ^ w := Nat.pow_le_pow_right (by omega) hw
    omega

theorem foldl_byteStep_lt (w poly : Nat) (hw : 8 ≤ w) (hp : poly < 2 ^ w) :
    ∀ (l : List Byte) (crc : Nat), crc < 2 ^ w → l.foldl (byteStep poly) crc < 2 ^ w := by
  intro l
  induction l with
  | nil => intro crc hc; simpa
  | cons b t ih =>
    intro crc hc
    rw [List.foldl_cons]
    exact ih _ (byteStep_lt w poly crc b hw hp hc)

/-- The 64-byte main loop of `Crc32::hashCore` (`Unroll = 4` groups of 16
bytes per pass), falling back to the classical single-byte loop for the
`<= 63`-byte remainder. -/
def crcCore32 (poly crc : Nat) (l : List Byte) : Nat :=
  if h : 64 ≤ l.length then
    crcCore32 poly
      (step16x32 poly
        (step16x32 poly
          (step16x32 poly
            (step16x32 poly crc (l.take 16))
            ((l.drop 16).take 16))
          ((l.drop 32).take 16))
        ((l.drop 48).take 16))
      (l.drop 64)
  else l.foldl (byteStep poly) crc
termination_by l.length
decreasing_by simp only [List.length_drop]; omega

/-- The 64-byte main loop of `Crc64::hashCore` (`Unroll = 4` groups of 16
bytes per pass). -/
def crcCore64 (poly crc : Nat) (l : List Byte) : Nat :=
  if h : 64 ≤ l.length then
    crcCore64 poly
      (step16x64 poly
        (step16x64 poly
          (step16x64 poly
            (step16x64 poly crc (l.take 16))
            ((l.drop 16).take 16))
          ((l.drop 32).take 16))
        ((l.drop 48).take 16))
      (l.drop 64)
  else l.foldl (byteStep poly) crc
termination_by l.length
decreasing_by simp only [List.length_drop]; omega

/-- `Crc32::hashCore`: invert the running state, process, invert back. -/
def crc32HashCore (poly h : Nat) (l : List Byte) : Nat :=
  not32 (crcCore32 poly (not32 h) l)

/-- `Crc64::hashCore`. -/
def crc64HashCore (poly h : Nat) (l : List Byte) : Nat :=
  not64 (crcCore64 poly (not64 h) l)

/-- The classical byte-at-a-time reference CRC-32: same table, same
initial and final inversions, no slicing. -/
def crc32Ref (poly h : Nat) (l : List Byte) : Nat :=
  not32 (l.foldl (byteStep poly) (not32 h))

/-- The classical byte-at-a-time reference CRC-64. -/
def crc64Ref (poly h : Nat) (l : List Byte) : Nat :=
  not64 (l.foldl (byteStep poly) (not64 h))

/-- `Crc32::hashFinal`: the state as big-endian bytes. -/
def crc32HashFinal (h : Nat) : List Byte := toBE32 h

/-- `Crc64::hashFinal`. -/
def crc64HashFinal (h : Nat) : List Byte := toBE64 h

/-- `HashAlgorithm::computeHash` driven by `Crc32` with the given
polynomial and seed (`initialize` sets `m_hash = m_seed`). -/
def crc32ComputeHash (poly seed : Nat) (data : List Byte) : List Byte :=
  crc32HashFinal (crc32HashCore poly seed data)

/-- `HashAlgorithm::computeHash` driven by `Crc64`. -/
def crc64ComputeHash (poly seed : Nat) (data : List Byte) : List Byte :=
  crc64HashFinal (crc64HashCore poly seed data)

theorem not32_lt (h : Nat) (hh : h < 2 ^ 32) : not32 h < 2 ^ 32 :=
  Nat.xor_lt_two_pow hh (by norm_num)

theorem not64_lt (h : Nat) (hh : h < 2 ^ 64) : not64 h < 2 ^ 64 :=
  Nat.xor_lt_two_pow hh (by norm_num)

/-- Splitting the 64-byte group of the CRC main loop into its four
16-byte sub-groups. -/
theorem take64_split {α : Type} (l : List α) (hl : 64 ≤ l.length) :
    l.take 64 = l.take 16 ++ ((l.drop 16).take 16 ++ ((l.drop 32).take 16 ++ (l.drop 48).take 16)) := by
  conv_lhs => rw [← List.take_append_drop 16 (l.take 64)]
  rw [List.take_take, List.drop_take]
  norm_num
  conv_lhs => rw [← List.take_append_drop 16 ((l.drop 16).take 48)]
  rw [List.take_take, List.drop_take, List.drop_drop]
  norm_num
  conv_lhs => rw [← List.take_append_drop 16 ((l.drop 32).take 32)]
  rw [List.take_take, List.drop_take, List.drop_drop]
  norm_num

theorem crcCore32_eq_aux (poly : Nat) (hp : poly < 2 ^ 32) :
    ∀ (L : Nat) (l : List Byte), l.length ≤ L → ∀ (crc : Nat), crc < 2 ^ 32 →
    crcCore32 poly crc l = l.foldl (byteStep poly) crc := by
  have hstep : ∀ (c : Nat), c < 2 ^ 32 → ∀ (s : List Byte), s.length = 16 →
      step16x32 poly c s = s.foldl (byteStep poly) c := by
    intro c hc s hs
    rw [step16x32_eq poly c hc s hs, foldl_byteStep_eq, hs]
  intro L
  induction L with
  | zero =>
    intro l hlen crc hc
    rw [crcCore32, dif_neg (by omega)]
  | succ L ih =>
    intro l hlen crc hc
    by_cases h64 : 64 ≤ l.length
    · have t16 : (l.take 16).length = 16 := by simp [List.length_take]; omega
      have t32 : ((l.drop 16).take 16).length = 16 := by
        simp [List.length_take, List.length_drop]; omega
      have t48 : ((l.drop 32).take 16).length = 16 := by
        simp [List.length_take, List.length_drop]; omega
      have t64 : ((l.drop 48).take 16).length = 16 := by
        simp [List.length_take, List.length_drop]; omega
      rw [crcCore32, dif_pos h64]
      have e1 := hstep crc hc (l.take 16) t16
      have b1 : step16x32 poly crc (l.take 16) < 2 ^ 32 := by
        rw [e1]
        exact foldl_byteStep_lt 32 poly (by omega) hp _ _ hc
      have e2 := hstep _ b1 ((l.drop 16).take 16) t32
      have b2 : step16x32 poly (step16x32 poly crc (l.take 16)) ((l.drop 16).take 16)
          < 2 ^ 32 := by
        rw [e2]
        exact foldl_byteStep_lt 32 poly (by omega) hp _ _ b1
      have e3 := hstep _ b2 ((l.drop 32).take 16) t48
      have b3 : step16x32 poly
          (step16x32 poly (step16x32 poly crc (l.take 16)) ((l.drop 16).take 16))
          ((l.drop 32).take 16) < 2 ^ 32 := by
        rw [e3]
        exact foldl_byteStep_lt 32 poly (by omega) hp _ _ b2
      have e4 := hstep _ b3 ((l.drop 48).take 16) t64
      have b4 : step16x32 poly (step16x32 poly
          (step16x32 poly (step16x32 poly crc (l.take 16)) ((l.drop 16).take 16))
          ((l.drop 32).take 16)) ((l.drop 48).take 16) < 2 ^ 32 := by
        rw [e4]
        exact foldl_byteStep_lt 32 poly (by omega) hp _ _ b3
      rw [ih (l.drop 64) (by simp only [List.length_drop]; omega) _ b4,
        e4, e3, e2, e1,
        ← List.foldl_append, ← List.foldl_append, ← List.foldl_append, ← List.foldl_append]
      refine congrArg (List.foldl (byteStep poly) crc) ?_
      have hass : l.take 16 ++ ((l.drop 16).take 16 ++ ((l.drop 32).take 16 ++
            ((l.drop 48).take 16 ++ l.drop 64)))
          = (l.take 16 ++ ((l.drop 16).take 16 ++ ((l.drop 32).take 16 ++
            (l.drop 48).take 16))) ++ l.drop 64 := by
        simp [List.append_assoc]
      rw [hass, ← take64_split l h64, List.take_append_drop]
    · rw [crcCore32, dif_neg h64]

theorem crcCore64_eq_aux (poly : Nat) (hp : poly < 2 ^ 64) :
    ∀ (L : Nat) (l : List Byte), l.length ≤ L → ∀ (crc : Nat), crc < 2 ^ 64 →
    crcCore64 poly crc l = l.foldl (byteStep poly) crc := by
  have hstep : ∀ (c : Nat), c < 2 ^ 64 → ∀ (s : List Byte), s.length = 16 →
      step16x64 poly c s = s.foldl (byteStep poly) c := by
    intro c hc s hs
    rw [step16x64_eq poly c hc s hs, foldl_byteStep_eq, hs]
  intro L
  induction L with
  | zero =>
    intro l hlen crc hc
    rw [crcCore64, dif_neg (by omega)]
  | succ L ih =>
    intro l hlen crc hc
    by_cases h64 : 64 ≤ l.length
    · have t16 : (l.take 16).length = 16 := by simp [List.length_take]; omega
      have t32 : ((l.drop 16).take 16).length = 16 := by
        simp [List.length_take, List.length_drop]; omega
      have t48 : ((l.drop 32).take 16).length = 16 := by
        simp [List.length_take, List.length_drop]; omega
      have t64 : ((l.drop 48).take 16).length = 16 := by
        simp [List.length_take, List.length_drop]; omega
      rw [crcCore64, dif_pos h64]
      have e1 := hstep crc hc (l.take 16) t16
      have b1 : step16x64 poly crc (l.take 16) < 2 ^ 64 := by
        rw [e1]
        exact foldl_byteStep_lt 64 poly (by omega) hp _ _ hc
      have e2 := hstep _ b1 ((l.drop 16).take 16) t32
      have b2 : step16x64 poly (step16x64 poly crc (l.take 16)) ((l.drop 16).take 16)
          < 2 ^ 64 := by
        rw [e2]
        exact foldl_byteStep_lt 64 poly (by omega) hp _ _ b1
      have e3 := hstep _ b2 ((l.drop 32).take 16) t48
      have b3 : step16x64 poly
          (step16x64 poly (step16x64 poly crc (l.take 16)) ((l.drop 16).take 16))
          ((l.drop 32).take 16) < 2 ^ 64 := by
        rw [e3]
        exact foldl_byteStep_lt 64 poly (by omega) hp _ _ b2
      have e4 := hstep _ b3 ((l.drop 48).take 16) t64
      have b4 : step16x64 poly (step16x64 poly
          (step16x64 poly (step16x64 poly crc (l.take 16)) ((l.drop 16).take 16))
          ((l.drop 32).take 16)) ((l.drop 48).take 16) < 2 ^ 64 := by
        rw [e4]
        exact foldl_byteStep_lt 64 poly (by omega) hp _ _ b3
      rw [ih (l.drop 64) (by simp only [List.length_drop]; omega) _ b4,
        e4, e3, e2, e1,
        ← List.foldl_append, ← List.foldl_append, ← List.foldl_append, ← List.foldl_append]
      refine congrArg (List.foldl (byteStep poly) crc) ?_
      have hass : l.take 16 ++ ((l.drop 16).take 16 ++ ((l.drop 32).take 16 ++
            ((l.drop 48).take 16 ++ l.drop 64)))
          = (l.take 16 ++ ((l.drop 16).take 16 ++ ((l.drop 32).take 16 ++
            (l.drop 48).take 16))) ++ l.drop 64 := by
        simp [List.append_assoc]
      rw [hass, ← take64_split l h64, List.take_append_drop]
    · rw [crcCore64, dif_neg h64]

/-- `Crc32::hashCore` computes exactly the byte-at-a-time reference CRC. -/
theorem crc32HashCore_eq_ref (poly h : Nat) (hp : poly < 2 ^ 32) (hh : h < 2 ^ 32)
    (l : List Byte) : crc32HashCore poly h l = crc32Ref poly h l := by
  unfold crc32HashCore crc32Ref
  rw [crcCore32_eq_aux poly hp l.length l (Nat.le_refl _) (not32 h) (not32_lt h hh)]

/-- `Crc64::hashCore` computes exactly the byte-at-a-time reference CRC. -/
theorem crc64HashCore_eq_ref (poly h : Nat) (hp : poly < 2 ^ 64) (hh : h < 2 ^ 64)
    (l : List Byte) : crc64HashCore poly h l = crc64Ref poly h l := by
  unfold crc64HashCore crc64Ref
  rw [crcCore64_eq_aux poly hp l.length l (Nat.le_refl _) (not64 h) (not64_lt h hh)]

/-! ## xxHash32 / xxHash64
(`keeg::hashing::noncryptographic::XxHash32` / `XxHash64`)

Both `hashCore`s share one shape: if the old buffer plus the new data
still fit below `MaxBufferSize`, only buffer; otherwise top up the
buffer to a full block, process it, stream full blocks, and keep the
remainder. `xxCore process bs` is that common body. -/

/-- The mutable members of the xxHash classes: the four lanes
(`m_state`, of type `σ`), the first `m_bufferSize` bytes of `m_buffer`,
and `m_totalLength`. -/
structure XxState (σ : Type) where
  state : σ
  buffer : List Byte
  totalLength : Nat
deriving DecidableEq

/-- The common body of `XxHash32::hashCore` / `XxHash64::hashCore`.
The `while (current <= stopBlock)` loop is `processFullBlocks` with a
dummy byte counter (the xxHash cores do not keep one). -/
def xxCore {σ : Type} (process : σ → List Byte → σ) (bs : Nat)
    (s : XxState σ) (input : List Byte) : XxState σ :=
  let totalLength := s.totalLength + input.length
  -- unprocessed old data plus new data still fit in temporary buffer ?
  if s.buffer.length + input.length < bs then
    ⟨s.state, s.buffer ++ input, totalLength⟩
  else
    -- some data left from previous update ? fill it to a block and process
    let fill := if s.buffer.length > 0 then bs - s.buffer.length else 0
    let st1 := if s.buffer.length > 0 then process s.state (s.buffer ++ input.take fill)
               else s.state
    let r := processFullBlocks process bs st1 0 (input.drop fill)
    ⟨r.1, r.2.2, totalLength⟩

/-- Canonical form of `xxCore`: under the buffer invariant, feeding
`input` processes exactly the complete blocks of `buffer ++ input`. -/
theorem xxCore_eq {σ : Type} (process : σ → List Byte → σ) (bs : Nat)
    (hbs : 0 < bs) (s : XxState σ) (input : List Byte)
    (hinv : s.buffer.length < bs) :
    xxCore process bs s input
      = ⟨foldBlocks process bs s.state (s.buffer ++ input),
         (s.buffer ++ input).drop (bs * ((s.buffer.length + input.length) / bs)),
         s.totalLength + input.length⟩ := by
  rcases s with ⟨st, buf, tot⟩
  simp only at hinv ⊢
  by_cases hsmall : buf.length + input.length < bs
  · simp only [xxCore, if_pos hsmall]
    rw [foldBlocks_small process bs st (buf ++ input)
        (by simp only [List.length_append]; omega),
      Nat.div_eq_of_lt (by omega), Nat.mul_zero, List.drop_zero]
  · by_cases hb : buf.length > 0
    · have hlenb : (buf ++ input.take (bs - buf.length)).length = bs := by
        simp only [List.length_append, List.length_take]; omega
      have htake : (buf ++ input).take bs = buf ++ input.take (bs - buf.length) := by
        rw [List.take_append_eq_append_take, List.take_of_length_le (by omega)]
      have hdrop : (buf ++ input).drop bs = input.drop (bs - buf.length) := by
        rw [List.drop_append_eq_append_drop, List.drop_eq_nil_of_le (by omega),
          List.nil_append]
      have hstep := foldBlocks_step process bs st (buf ++ input) hbs
        (by simp only [List.length_append]; omega)
      rw [htake, hdrop] at hstep
      simp only [xxCore, if_neg hsmall, if_pos hb,
        processFullBlocks_eq process bs hbs]
      rw [hstep]
      have hrl : (input.drop (bs - buf.length)).length = buf.length + input.length - bs := by
        simp only [List.length_drop]; omega
      have hdiv : (buf.length + input.length) / bs
          = (buf.length + input.length - bs) / bs + 1 := by
        rw [Nat.div_eq_sub_div hbs (by omega)]
      simp only [XxState.mk.injEq, true_and, hrl]
      rw [hdiv, Nat.mul_add, Nat.mul_one, Nat.add_comm (bs * _) bs, ← List.drop_drop, hdrop]
      simp
    · have hbuf : buf = [] := List.eq_nil_of_length_eq_zero (by omega)
      subst hbuf
      simp only [List.length_nil, Nat.zero_add] at hsmall
      simp only [xxCore, List.length_nil, Nat.zero_add, if_neg hsmall, gt_iff_lt,
        Nat.lt_irrefl, if_false, List.take_zero, List.drop_zero, List.nil_append,
        List.append_nil, processFullBlocks_eq process bs hbs]

/-- The xxHash state reached from `initialize` by feeding `fed`. -/
def xxRun {σ : Type} (process : σ → List Byte → σ) (bs : Nat) (st0 : σ)
    (fed : List Byte) : XxState σ :=
  ⟨foldBlocks process bs st0 fed,
   fed.drop (bs * (fed.length / bs)),
   fed.length⟩

theorem xxRun_nil {σ : Type} (process : σ → List Byte → σ) (bs : Nat)
    (hbs : 0 < bs) (st0 : σ) : xxRun process bs st0 [] = ⟨st0, [], 0⟩ := by
  unfold xxRun
  rw [foldBlocks_small process bs st0 [] (by simp only [List.length_nil]; omega)]
  simp

theorem xxRun_buffer_lt {σ : Type} (process : σ → List Byte → σ) (bs : Nat)
    (hbs : 0 < bs) (st0 : σ) (fed : List Byte) :
    (xxRun process bs st0 fed).buffer.length < bs := by
  unfold xxRun
  simp only [List.length_drop]
  have h1 := Nat.div_add_mod fed.length bs
  have h2 := Nat.mod_lt fed.length hbs
  omega

theorem xxRun_update {σ : Type} (process : σ → List Byte → σ) (bs : Nat)
    (hbs : 0 < bs) (st0 : σ) (A B : List Byte) :
    xxCore process bs (xxRun process bs st0 A) B = xxRun process bs st0 (A ++ B) := by
  rw [xxCore_eq process bs hbs _ B (xxRun_buffer_lt process bs hbs st0 A)]
  unfold xxRun
  simp only [List.length_drop, List.length_append]
  have h1 := Nat.div_add_mod A.length bs
  have h2 := Nat.mod_lt A.length hbs
  have hdiv : (A.length - bs * (A.length / bs) + B.length) / bs + A.length / bs
      = (A.length + B.length) / bs := by
    have h3 : A.length - bs * (A.length / bs) = A.length % bs := by omega
    rw [h3, ← Nat.add_mul_div_left (A.length % bs + B.length) (A.length / bs) hbs]
    refine congrArg (· / bs) ?_
    omega
  have hXd : (A.drop (bs * (A.length / bs)) ++ B)
      = (A ++ B).drop (bs * (A.length / bs)) := by
    rw [List.drop_append_eq_append_drop, Nat.sub_eq_zero_of_le (by omega), List.drop_zero]
  simp only [XxState.mk.injEq]
  refine ⟨?_, ?_, ?_⟩
  · rw [foldBlocks_append process bs hbs A B st0]
  · rw [hXd, List.drop_drop, ← hdiv, Nat.mul_add]
    refine congrArg (fun k => (A ++ B).drop k) ?_
    omega
  · trivial

theorem xxRun_chunks {σ : Type} (process : σ → List Byte → σ) (bs : Nat)
    (hbs : 0 < bs) (st0 : σ) :
    ∀ (chunks : List (List Byte)) (A : List Byte),
    List.foldl (xxCore process bs) (xxRun process bs st0 A) chunks
      = xxRun process bs st0 (A ++ chunks.flatten) := by
  intro chunks
  induction chunks with
  | nil => intro A; simp
  | cons c rest ih =>
    intro A
    rw [List.foldl_cons, xxRun_update process bs hbs st0 A c, ih (A ++ c),
      List.flatten_cons, List.append_assoc]

namespace XxHash32

/-- The `magic constants` of `xxhash32.hpp`. -/
def Prime1 : Nat := 2654435761
def Prime2 : Nat := 2246822519
def Prime3 : Nat := 3266489917
def Prime4 : Nat := 668265263
def Prime5 : Nat := 374761393

/-- `XxHash32::MaxBufferSize` (16). -/
def MaxBufferSize : Nat := 16

/-- One lane step of `XxHash32::process`:
`rotateLeft(state + block[i] * Prime2, 13) * Prime1`. -/
def lane (st w : Nat) : Nat := mul32 (rotl32 ((st + w * Prime2) % 2 ^ 32) 13) Prime1

/-- `XxHash32::process`: a 16-byte block as four little-endian words,
one per lane. -/
def process (st : Nat × Nat × Nat × Nat) (block : List Byte) : Nat × Nat × Nat × Nat :=
  (lane st.1 (le32 block), lane st.2.1 (le32 (block.drop 4)),
   lane st.2.2.1 (le32 (block.drop 8)), lane st.2.2.2 (le32 (block.drop 12)))

/-- `XxHash32::m_hashSize` (bits). -/
def hashSize : Nat := 32

/-- The state set up by the C++ `XxHash32` re-init member for a given
seed (`m_state[3] = m_seed - Prime1` wraps modulo `2^32`). -/
def initState (seed : Nat) : XxState (Nat × Nat × Nat × Nat) :=
  ⟨((seed + Prime1 + Prime2) % 2 ^ 32, (seed + Prime2) % 2 ^ 32, seed,
    (seed + (2 ^ 32 - Prime1)) % 2 ^ 32), [], 0⟩

/-- `XxHash32::hashCore`. -/
def hashCore (s : XxState (Nat × Nat × Nat × Nat)) (input : List Byte) :
    XxState (Nat × Nat × Nat × Nat) :=
  xxCore process MaxBufferSize s input

/-- The `at least 4 bytes left` loop of `XxHash32::hashFinal`. -/
def tail4 (r : Nat) (l : List Byte) : Nat :=
  if h : 4 ≤ l.length then
    tail4 (mul32 (rotl32 ((r + le32 l * Prime3) % 2 ^ 32) 17) Prime4) (l.drop 4)
  else l.foldl (fun r b => mul32 (rotl32 ((r + b.val * Prime5) % 2 ^ 32) 11) Prime1) r
termination_by l.length
decreasing_by simp only [List.length_drop]; omega

theorem tail4_nil (r : Nat) : tail4 r [] = r := by
  rw [tail4]
  simp

/-- The 32-bit word `result` that `XxHash32::hashFinal` computes before
emitting it: fold the lanes (or the seed lane for short inputs), mix the
buffered tail, avalanche. -/
def finalWord (s : XxState (Nat × Nat × Nat × Nat)) : Nat :=
  let result0 := s.totalLength % 2 ^ 32
  let result1 :=
    if s.totalLength ≥ MaxBufferSize then
      (result0 + rotl32 s.state.1 1 + rotl32 s.state.2.1 7 +
       rotl32 s.state.2.2.1 12 + rotl32 s.state.2.2.2 18) % 2 ^ 32
    else (result0 + s.state.2.2.1 + Prime5) % 2 ^ 32
  let result2 := tail4 result1 s.buffer
  let result3 := result2 ^^^ (result2 >>> 15)
  let result4 := mul32 result3 Prime2
  let result5 := result4 ^^^ (result4 >>> 13)
  let result6 := mul32 result5 Prime3
  result6 ^^^ (result6 >>> 16)

/-- `XxHash32::hashFinal`: the digest is the byte dump of
`endian::native_to_big(result)` — the big-endian image of `finalWord`.
The state is not mutated. -/
def hashFinal (s : XxState (Nat × Nat × Nat × Nat)) : List Byte :=
  toBE32 (finalWord s)

/-- `HashAlgorithm::computeHash` driven by `XxHash32` with a seed. -/
def computeHash (seed : Nat) (data : List Byte) : List Byte :=
  hashFinal (hashCore (initState seed) data)

end XxHash32

namespace XxHash64

/-- The `magic constants` of the `XxHash64` class. -/
def Prime1 : Nat := 11400714785074694791
def Prime2 : Nat := 14029467366897019727
def Prime3 : Nat := 1609587929392839161
def Prime4 : Nat := 9650029242287828579
def Prime5 : Nat := 2870177450012600261

/-- `XxHash64::MaxBufferSize` (32). -/
def MaxBufferSize : Nat := 32

/-- `XxHash64::processSingle`:
`rotateLeft(previous + input * Prime2, 31) * Prime1`. -/
def processSingle (prev input : Nat) : Nat :=
  mul64 (rotl64 ((prev + input * Prime2) % 2 ^ 64) 31) Prime1

/-- `XxHash64::process`: a 32-byte block as four little-endian 64-bit
words, one per lane. -/
def process (st : Nat × Nat × Nat × Nat) (block : List Byte) : Nat × Nat × Nat × Nat :=
  (processSingle st.1 (le64 block), processSingle st.2.1 (le64 (block.drop 8)),
   processSingle st.2.2.1 (le64 (block.drop 16)), processSingle st.2.2.2 (le64 (block.drop 24)))

/-- `XxHash64::m_hashSize`: `std::numeric_limits<uint32_t>::digits`,
i.e. 32 — even though the digest is 64 bits wide. -/
def hashSize : Nat := 32

/-- The state set up by the C++ `XxHash64` re-init member. -/
def initState (seed : Nat) : XxState (Nat × Nat × Nat × Nat) :=
  ⟨((seed + Prime1 + Prime2) % 2 ^ 64, (seed + Prime2) % 2 ^ 64, seed,
    (seed + (2 ^ 64 - Prime1)) % 2 ^ 64), [], 0⟩

/-- `XxHash64::hashCore`. -/
def hashCore (s : XxState (Nat × Nat × Nat × Nat)) (input : List Byte) :
    XxState (Nat × Nat × Nat × Nat) :=
  xxCore process MaxBufferSize s input

/-- The `at least 8 bytes left` loop of `XxHash64::hashFinal`. -/
def tail8 (r : Nat) (l : List Byte) : Nat :=
  if h : 8 ≤ l.length then
    tail8 ((mul64 (rotl64 (r ^^^ processSingle 0 (le64 l)) 27) Prime1 + Prime4) % 2 ^ 64)
      (l.drop 8)
  else
    -- 4 bytes left ? => eat those
    let r1 := if 4 ≤ l.length then
        ((mul64 (rotl64 (r ^^^ mul64 (le32 l) Prime1) 23) Prime2 + Prime3) % 2 ^ 64)
      else r
    let rest := if 4 ≤ l.length then l.drop 4 else l
    rest.foldl (fun r b => mul64 (rotl64 (r ^^^ (b.val * Prime5) % 2 ^ 64) 11) Prime1) r1
termination_by l.length
decreasing_by simp only [List.length_drop]; omega

theorem tail8_nil (r : Nat) : tail8 r [] = r := by
  rw [tail8]
  simp

/-- The 64-bit word `result` that `XxHash64::hashFinal` computes before
emitting it: fold and merge the lanes (or the seed lane for short
inputs), add the total length, mix the buffered tail, avalanche. -/
def finalWord (s : XxState (Nat × Nat × Nat × Nat)) : Nat :=
  let result0 :=
    if s.totalLength ≥ MaxBufferSize then
      let r := (rotl64 s.state.1 1 + rotl64 s.state.2.1 7 +
                rotl64 s.state.2.2.1 12 + rotl64 s.state.2.2.2 18) % 2 ^ 64
      let r := ((r ^^^ processSingle 0 s.state.1) * Prime1 + Prime4) % 2 ^ 64
      let r := ((r ^^^ processSingle 0 s.state.2.1) * Prime1 + Prime4) % 2 ^ 64
      let r := ((r ^^^ processSingle 0 s.state.2.2.1) * Prime1 + Prime4) % 2 ^ 64
      ((r ^^^ processSingle 0 s.state.2.2.2) * Prime1 + Prime4) % 2 ^ 64
    else (s.state.2.2.1 + Prime5) % 2 ^ 64
  let result1 := (result0 + s.totalLength) % 2 ^ 64
  let result2 := tail8 result1 s.buffer
  let result3 := result2 ^^^ (result2 >>> 33)
  let result4 := mul64 result3 Prime2
  let result5 := result4 ^^^ (result4 >>> 29)
  let result6 := mul64 result5 Prime3
  result6 ^^^ (result6 >>> 32)

/-- `XxHash64::hashFinal`: the digest is the byte dump of
`endian::native_to_big(result)` — the big-endian image of `finalWord`.
The state is not mutated. -/
def hashFinal (s : XxState (Nat × Nat × Nat × Nat)) : List Byte :=
  toBE64 (finalWord s)

/-- `HashAlgorithm::computeHash` driven by `XxHash64` with a seed. -/
def computeHash (seed : Nat) (data : List Byte) : List Byte :=
  hashFinal (hashCore (initState seed) data)

end XxHash64

/-! ## `HashAlgorithm::computeHash(std::istream&)` -/

/-- The `while (*input) { read; hashCore(buffer, gcount); }` loop.
A stream is modelled as the list of its successive `read` results:
the bytes each `read` returned (`gcount` of them) and whether the
stream still tests good afterwards.  The loop hashes every read's
bytes — including the final, failing read's partial payload — and
stops when the stream tests bad. -/
def streamLoop {τ : Type} (upd : τ → List Byte → τ) :
    τ → List (List Byte × Bool) → τ
  | s, [] => s
  | s, (c, g) :: rest => if g then streamLoop upd (upd s c) rest else upd s c

/-- `HashAlgorithm::computeHash(std::istream&)`: an initially-bad stream
returns the empty vector; otherwise `initialize`, run the read loop,
`hashFinal`. -/
def computeHashStream {τ : Type} (init : τ) (upd : τ → List Byte → τ)
    (fin : τ → List Byte) (good0 : Bool) (reads : List (List Byte × Bool)) :
    List Byte :=
  if good0 then fin (streamLoop upd init reads) else []

/-- The chunks the read loop actually hashes: every read up to and
including the first one after which the stream tests bad. -/
def readsUntilFail : List (List Byte × Bool) → List (List Byte)
  | [] => []
  | (c, g) :: rest => c :: (if g then readsUntilFail rest else [])

theorem streamLoop_eq_foldl {τ : Type} (upd : τ → List Byte → τ) :
    ∀ (reads : List (List Byte × Bool)) (s : τ),
    streamLoop upd s reads = List.foldl upd s (readsUntilFail reads) := by
  intro reads
  induction reads with
  | nil => intro s; rfl
  | cons r rest ih =>
    intro s
    rcases r with ⟨c, g⟩
    cases g
    · simp [streamLoop, readsUntilFail]
    · simp [streamLoop, readsUntilFail, ih]

/-- Modelled from the spec: `hexString(digest, upperCase, spaced)`
renders a digest as hexadecimal text (the repository's
`common::make_hex_string` helper lives in `keeg/common/stringutils.hpp`,
which is not among the given sources); lowercase, unspaced form. -/
def hexString (digest : List Byte) : List Char :=
  (digest.map (fun b =>
    [if b.val / 16 < 10 then Char.ofNat (48 + b.val / 16) else Char.ofNat (87 + b.val / 16),
     if b.val % 16 < 10 then Char.ofNat (48 + b.val % 16) else Char.ofNat (87 + b.val % 16)])).flatten

/-! ## CRC state composition -/

theorem not32_not32 (x : Nat) : not32 (not32 x) = x := by
  unfold not32
  rw [Nat.xor_assoc, Nat.xor_self, Nat.xor_zero]

theorem not64_not64 (x : Nat) : not64 (not64 x) = x := by
  unfold not64
  rw [Nat.xor_assoc, Nat.xor_self, Nat.xor_zero]

theorem crc32HashCore_lt (poly h : Nat) (hp : poly < 2 ^ 32) (hh : h < 2 ^ 32)
    (l : List Byte) : crc32HashCore poly h l < 2 ^ 32 := by
  rw [crc32HashCore_eq_ref poly h hp hh l]
  exact not32_lt _ (foldl_byteStep_lt 32 poly (by omega) hp l _ (not32_lt h hh))

theorem crc64HashCore_lt (poly h : Nat) (hp : poly < 2 ^ 64) (hh : h < 2 ^ 64)
    (l : List Byte) : crc64HashCore poly h l < 2 ^ 64 := by
  rw [crc64HashCore_eq_ref poly h hp hh l]
  exact not64_lt _ (foldl_byteStep_lt 64 poly (by omega) hp l _ (not64_lt h hh))

theorem crc32HashCore_append (poly h : Nat) (hp : poly < 2 ^ 32) (hh : h < 2 ^ 32)
    (P Q : List Byte) :
    crc32HashCore poly (crc32HashCore poly h P) Q = crc32HashCore poly h (P ++ Q) := by
  have h1 : crc32HashCore poly h P < 2 ^ 32 := crc32HashCore_lt poly h hp hh P
  rw [crc32HashCore_eq_ref poly _ hp h1 Q, crc32HashCore_eq_ref poly h hp hh P,
    crc32HashCore_eq_ref poly h hp hh (P ++ Q)]
  unfold crc32Ref
  rw [not32_not32, List.foldl_append]

theorem crc64HashCore_append (poly h : Nat) (hp : poly < 2 ^ 64) (hh : h < 2 ^ 64)
    (P Q : List Byte) :
    crc64HashCore poly (crc64HashCore poly h P) Q = crc64HashCore poly h (P ++ Q) := by
  have h1 : crc64HashCore poly h P < 2 ^ 64 := crc64HashCore_lt poly h hp hh P
  rw [crc64HashCore_eq_ref poly _ hp h1 Q, crc64HashCore_eq_ref poly h hp hh P,
    crc64HashCore_eq_ref poly h hp hh (P ++ Q)]
  unfold crc64Ref
  rw [not64_not64, List.foldl_append]

theorem crc32_fold_chunks (poly : Nat) (hp : poly < 2 ^ 32) :
    ∀ (chunks : List (List Byte)) (h : Nat), h < 2 ^ 32 →
    List.foldl (crc32HashCore poly) h chunks = crc32HashCore poly h chunks.flatten := by
  intro chunks
  induction chunks with
  | nil =>
    intro h hh
    show h = crc32HashCore poly h []
    rw [crc32HashCore_eq_ref poly h hp hh []]
    show h = not32 (not32 h)
    rw [not32_not32]
  | cons c rest ih =>
    intro h hh
    rw [List.foldl_cons, ih _ (crc32HashCore_lt poly h hp hh c),
      crc32HashCore_append poly h hp hh c rest.flatten, List.flatten_cons]

theorem crc64_fold_chunks (poly : Nat) (hp : poly < 2 ^ 64) :
    ∀ (chunks : List (List Byte)) (h : Nat), h < 2 ^ 64 →
    List.foldl (crc64HashCore poly) h chunks = crc64HashCore poly h chunks.flatten := by
  intro chunks
  induction chunks with
  | nil =>
    intro h hh
    show h = crc64HashCore poly h []
    rw [crc64HashCore_eq_ref poly h hp hh []]
    show h = not64 (not64 h)
    rw [not64_not64]
  | cons c rest ih =>
    intro h hh
    rw [List.foldl_cons, ih _ (crc64HashCore_lt poly h hp hh c),
      crc64HashCore_append poly h hp hh c rest.flatten, List.flatten_cons]

/-- `Crc32::m_hashSize` (bits). -/
def crc32HashSize : Nat := 32

/-- `Crc64::m_hashSize` (bits). -/
def crc64HashSize : Nat := 64

/-- Streaming equivalence for the buffered engine, from the initial
state: any chunking of a byte stream reaches the same state as feeding
it whole. -/
theorem mdStreaming {σ : Type} (compress : σ → List Byte → σ) (bs : Nat)
    (hbs : 0 < bs) (h0 : σ) (chunks : List (List Byte)) :
    List.foldl (hashCoreG compress bs) ⟨h0, 0, []⟩ chunks
      = hashCoreG compress bs ⟨h0, 0, []⟩ chunks.flatten := by
  rw [← mdRun_nil compress bs hbs h0, mdRun_chunks compress bs hbs h0 chunks [],
    mdRun_update compress bs hbs h0 [] chunks.flatten]

theorem mdBufferBound {σ : Type} (compress : σ → List Byte → σ) (bs : Nat)
    (hbs : 0 < bs) (h0 : σ) (chunks : List (List Byte)) :
    (List.foldl (hashCoreG compress bs) ⟨h0, 0, []⟩ chunks).buffer.length < bs := by
  rw [← mdRun_nil compress bs hbs h0, mdRun_chunks compress bs hbs h0 chunks []]
  exact mdRun_buffer_lt compress bs hbs h0 _

theorem xxStreaming {σ : Type} (process : σ → List Byte → σ) (bs : Nat)
    (hbs : 0 < bs) (st0 : σ) (chunks : List (List Byte)) :
    List.foldl (xxCore process bs) ⟨st0, [], 0⟩ chunks
      = xxCore process bs ⟨st0, [], 0⟩ chunks.flatten := by
  rw [← xxRun_nil process bs hbs st0, xxRun_chunks process bs hbs st0 chunks [],
    xxRun_update process bs hbs st0 [] chunks.flatten]

theorem xxBufferBound {σ : Type} (process : σ → List Byte → σ) (bs : Nat)
    (hbs : 0 < bs) (st0 : σ) (chunks : List (List Byte)) :
    (List.foldl (xxCore process bs) ⟨st0, [], 0⟩ chunks).buffer.length < bs := by
  rw [← xxRun_nil process bs hbs st0, xxRun_chunks process bs hbs st0 chunks []]
  exact xxRun_buffer_lt process bs hbs st0 _

/-! ## The claims -/

/-- C1: for every algorithm (MD5, SHA-1, SHA-256, SHA-3, CRC-32,
CRC-64, xxHash32, xxHash64), every byte string and every partition of
it into chunks (1-byte and empty chunks included), initialize +
one `hashCore` per chunk + `hashFinal` yields the same digest as
initialize + a single `hashCore` of the whole string + `hashFinal`. -/
theorem C1_streaming_equivalence :
    (∀ chunks : List (List Byte),
      (Md5.hashFinal (List.foldl Md5.hashCore Md5.initState chunks)).1
        = (Md5.hashFinal (Md5.hashCore Md5.initState chunks.flatten)).1)
  ∧ (∀ chunks : List (List Byte),
      (Sha1.hashFinal (List.foldl Sha1.hashCore Sha1.initState chunks)).1
        = (Sha1.hashFinal (Sha1.hashCore Sha1.initState chunks.flatten)).1)
  ∧ (∀ chunks : List (List Byte),
      (Sha256.hashFinal (List.foldl Sha256.hashCore Sha256.initState chunks)).1
        = (Sha256.hashFinal (Sha256.hashCore Sha256.initState chunks.flatten)).1)
  ∧ (∀ bits : Nat, (bits = 224 ∨ bits = 256 ∨ bits = 384 ∨ bits = 512) →
      ∀ chunks : List (List Byte),
      (Sha3.hashFinal bits (List.foldl (Sha3.hashCore bits) Sha3.initState chunks)).1
        = (Sha3.hashFinal bits (Sha3.hashCore bits Sha3.initState chunks.flatten)).1)
  ∧ (∀ poly seed : Nat, poly < 2 ^ 32 → seed < 2 ^ 32 →
      ∀ chunks : List (List Byte),
      crc32HashFinal (List.foldl (crc32HashCore poly) seed chunks)
        = crc32HashFinal (crc32HashCore poly seed chunks.flatten))
  ∧ (∀ poly seed : Nat, poly < 2 ^ 64 → seed < 2 ^ 64 →
      ∀ chunks : List (List Byte),
      crc64HashFinal (List.foldl (crc64HashCore poly) seed chunks)
        = crc64HashFinal (crc64HashCore poly seed chunks.flatten))
  ∧ (∀ (seed : Nat) (chunks : List (List Byte)),
      XxHash32.hashFinal (List.foldl XxHash32.hashCore (XxHash32.initState seed) chunks)
        = XxHash32.hashFinal (XxHash32.hashCore (XxHash32.initState seed) chunks.flatten))
  ∧ (∀ (seed : Nat) (chunks : List (List Byte)),
      XxHash64.hashFinal (List.foldl XxHash64.hashCore (XxHash64.initState seed) chunks)
        = XxHash64.hashFinal (XxHash64.hashCore (XxHash64.initState seed) chunks.flatten)) := by
  refine ⟨?_, ?_, ?_, ?_, ?_, ?_, ?_, ?_⟩
  · intro chunks
    exact congrArg (fun s => (Md5.hashFinal s).1)
      (mdStreaming Md5.compress 64 (by norm_num) _ chunks)
  · intro chunks
    exact congrArg (fun s => (Sha1.hashFinal s).1)
      (mdStreaming Sha1.compress 64 (by norm_num) _ chunks)
  · intro chunks
    exact congrArg (fun s => (Sha256.hashFinal s).1)
      (mdStreaming Sha256.compress 64 (by norm_num) _ chunks)
  · intro bits hbits chunks
    have hbs : 0 < Sha3.blockSize bits := by
      rcases hbits with h | h | h | h <;> subst h <;> norm_num [Sha3.blockSize]
    exact congrArg (fun s => (Sha3.hashFinal bits s).1)
      (mdStreaming (Sha3.processBlock (Sha3.blockSize bits)) (Sha3.blockSize bits)
        hbs _ chunks)
  · intro poly seed hp hs chunks
    exact congrArg crc32HashFinal (crc32_fold_chunks poly hp chunks seed hs)
  · intro poly seed hp hs chunks
    exact congrArg crc64HashFinal (crc64_fold_chunks poly hp chunks seed hs)
  · intro seed chunks
    exact congrArg XxHash32.hashFinal
      (xxStreaming XxHash32.process 16 (by norm_num) _ chunks)
  · intro seed chunks
    exact congrArg XxHash64.hashFinal
      (xxStreaming XxHash64.process 32 (by norm_num) _ chunks)

end Crc

open Crc

namespace Sha3

/-- `Sha3::hashSize()`: `enumToIntegral(m_bits)`, the configured output
size in bits. -/
def hashSize (bits : Nat) : Nat := bits

/-- One Keccak round always yields 25 lanes, whatever the input state. -/
theorem keccakRound_length (rc : Nat) (A : List Nat) :
    (keccakRound rc A).length = 25 := by
  simp [keccakRound, chi]

theorem foldl_keccakRound_length (l : List Nat) (A : List Nat) (hA : A.length = 25) :
    (l.foldl (fun A rc => keccakRound rc A) A).length = 25 := by
  induction l generalizing A with
  | nil => simpa
  | cons x xs ih => exact ih _ (keccakRound_length x A)

/-- `Sha3::processBlock` always leaves 25 lanes. -/
theorem processBlock_length (bs : Nat) (A : List Nat) (block : List Byte) :
    (processBlock bs A block).length = 25 := by
  rw [processBlock]
  exact foldl_keccakRound_length _ _ (by simp)

end Sha3

theorem flatten_toLE64_length (l : List Nat) :
    ((l.map toLE64).flatten).length = 8 * l.length := by
  induction l with
  | nil => rfl
  | cons x xs ih =>
    simp only [List.map_cons, List.flatten_cons, List.length_append, ih,
      toLE64_length, List.length_cons]
    ring

/-- Modelled from the spec: a digest "emitted in big-endian
(most-significant byte first)" rendering of 32-bit words. -/
def beDigest32 (ws : List Nat) : List Byte := (ws.map toBE32).flatten

/-- Closed form of `mdPadBlocks` under the buffer invariant: one block
when the pad byte and the 8 length bytes fit (`bufferSize <= 55`), two
blocks otherwise. -/
theorem mdPadBlocks_eq (encodeLen : Nat → List Byte) (buf : List Byte)
    (numBytes : Nat) (hbuf : buf.length < 64) :
    mdPadBlocks encodeLen buf numBytes
      = if buf.length ≤ 55 then
          [buf ++ (128 : Byte) :: (List.replicate (55 - buf.length) 0
             ++ encodeLen ((8 * (numBytes + buf.length)) % 2 ^ 64))]
        else
          [buf ++ (128 : Byte) :: List.replicate (63 - buf.length) 0,
           List.replicate 56 0 ++ encodeLen ((8 * (numBytes + buf.length)) % 2 ^ 64)] := by
  by_cases hb : buf.length ≤ 55
  · rw [if_pos hb]
    simp only [mdPadBlocks]
    have h1 : (buf.length * 8 + 1) % 512 = buf.length * 8 + 1 :=
      Nat.mod_eq_of_lt (by omega)
    rw [h1, if_pos (by omega : buf.length * 8 + 1 ≤ 448)]
    have h2 : (buf.length * 8 + 1 + (448 - (buf.length * 8 + 1))) / 8 = 56 := by
      omega
    rw [h2, if_pos (by norm_num : (56 : Nat) < 64)]
    have hlen1 : (buf ++ (128 : Byte) :: List.replicate (64 - (buf.length + 1)) 0).length
        = 64 := by
      simp only [List.length_append, List.length_cons, List.length_replicate]
      omega
    have hdrop : (buf ++ (128 : Byte) :: List.replicate (64 - (buf.length + 1)) 0).drop
        (56 + 8) = [] := by
      refine List.drop_eq_nil_of_le ?_
      rw [hlen1]
    have htake : (buf ++ (128 : Byte) :: List.replicate (64 - (buf.length + 1)) 0).take 56
        = buf ++ (128 : Byte) :: List.replicate (55 - buf.length) 0 := by
      rw [List.take_append_eq_append_take, List.take_of_length_le (by omega)]
      have h3 : 56 - buf.length = (55 - buf.length) + 1 := by omega
      rw [h3, List.take_succ_cons, List.take_replicate,
        Nat.min_eq_left (by omega : 55 - buf.length ≤ 64 - (buf.length + 1))]
    rw [htake, hdrop, List.append_nil]
    simp [List.append_assoc]
  · rw [if_neg hb]
    simp only [mdPadBlocks]
    have h1 : (buf.length * 8 + 1) % 512 = buf.length * 8 + 1 :=
      Nat.mod_eq_of_lt (by omega)
    rw [h1, if_neg (by omega : ¬(buf.length * 8 + 1 ≤ 448))]
    have h2 : (buf.length * 8 + 1 + (512 + 448 - (buf.length * 8 + 1))) / 8 = 120 := by
      omega
    rw [h2, if_neg (by norm_num : ¬((120 : Nat) < 64)), if_pos (by norm_num : (120 : Nat) > 64)]
    have h3 : 64 - (buf.length + 1) = 63 - buf.length := by omega
    rw [h3]

/-- C2: the digest length always equals `hashSize()/8` — which holds for
MD5, SHA-1, SHA-256, SHA-3, CRC-32, CRC-64 and xxHash32, but fails for
`XxHash64`: its `m_hashSize` is `std::numeric_limits<uint32_t>::digits`
(32 bits), while its `hashFinal` emits an 8-byte digest, so
`len(finalize()) = 8 ≠ hashSize()/8 = 4`. -/
theorem C2_digest_lengths :
    (∀ s : MdState Md5.Regs, (Md5.hashFinal s).1.length = Md5.hashSize / 8)
  ∧ (∀ s : MdState Sha1.Regs, (Sha1.hashFinal s).1.length = Sha1.hashSize / 8)
  ∧ (∀ s : MdState Sha256.Regs, (Sha256.hashFinal s).1.length = Sha256.hashSize / 8)
  ∧ (∀ bits : Nat, (bits = 224 ∨ bits = 256 ∨ bits = 384 ∨ bits = 512) →
      ∀ s : MdState (List Nat),
      (Sha3.hashFinal bits s).1.length = Sha3.hashSize bits / 8)
  ∧ (∀ h : Nat, (crc32HashFinal h).length = crc32HashSize / 8)
  ∧ (∀ h : Nat, (crc64HashFinal h).length = crc64HashSize / 8)
  ∧ (∀ s, (XxHash32.hashFinal s).length = XxHash32.hashSize / 8)
  ∧ XxHash64.hashSize = 32
  ∧ (∀ s, (XxHash64.hashFinal s).length = 8)
  ∧ (8 : Nat) ≠ XxHash64.hashSize / 8 := by
  refine ⟨fun s => by simp [Md5.hashFinal, Md5.digestBytes, Md5.hashSize, toLE32],
    fun s => by simp [Sha1.hashFinal, Sha1.digestBytes, Sha1.hashSize, toBE32, toLE32],
    fun s => by simp [Sha256.hashFinal, Sha256.digestBytes, Sha256.hashSize, toBE32, toLE32],
    ?_,
    fun h => by simp [crc32HashFinal, crc32HashSize, toBE32, toLE32],
    fun h => by simp [crc64HashFinal, crc64HashSize, toBE64, toLE64, toLE32],
    fun s => by simp [XxHash32.hashFinal, XxHash32.hashSize, toBE32, toLE32],
    rfl,
    fun s => by simp [XxHash64.hashFinal, toBE64, toLE64, toLE32],
    by decide⟩
  intro bits hbits s
  have h25 : (Sha3.processBuffer (Sha3.blockSize bits) s).length = 25 :=
    Sha3.processBlock_length _ _ _
  simp only [Sha3.hashFinal, Sha3.hashSize, List.length_take, flatten_toLE64_length, h25]
  rcases hbits with h | h | h | h <;> subst h <;> norm_num

/-- C2 witness: the SHA-3-256 instance at `hashSize() = 256` bits. -/
theorem C2_witness :
    ((256 : Nat) = 224 ∨ (256 : Nat) = 256 ∨ (256 : Nat) = 384 ∨ (256 : Nat) = 512)
  ∧ (Sha3.hashFinal 256 Sha3.initState).1.length = Sha3.hashSize 256 / 8 :=
  ⟨Or.inr (Or.inl rfl),
   C2_digest_lengths.2.2.2.1 256 (Or.inr (Or.inl rfl)) Sha3.initState⟩

/-- C3: Merkle–Damgård finalization appends `0x80`, zero fill, and the
64-bit message bit-length — little-endian for MD5 (`toLE64`), big-endian
for SHA-1/SHA-256 (`toBE64`) — and processes a second 64-byte block
exactly when the pad byte plus length field do not fit in the current
block (`bufferSize + 1 + 8 > 64`). -/
theorem C3_md_padding_layout :
    (∀ (buf : List Byte) (numBytes : Nat), buf.length < 64 →
      (∀ encodeLen : Nat → List Byte,
        (mdPadBlocks encodeLen buf numBytes).flatten
          = buf ++ (128 : Byte) :: (List.replicate
                ((if buf.length ≤ 55 then 55 else 119) - buf.length) 0
              ++ encodeLen ((8 * (numBytes + buf.length)) % 2 ^ 64)))
      ∧ (mdPadBlocks toLE64 buf numBytes).length
          = (if buf.length + 1 + 8 ≤ 64 then 1 else 2)
      ∧ (mdPadBlocks toBE64 buf numBytes).length
          = (if buf.length + 1 + 8 ≤ 64 then 1 else 2)
      ∧ (∀ blk ∈ mdPadBlocks toLE64 buf numBytes, blk.length = 64)
      ∧ (∀ blk ∈ mdPadBlocks toBE64 buf numBytes, blk.length = 64))
  ∧ (∀ s : MdState Md5.Regs,
      Md5.processBuffer s
        = List.foldl Md5.compress s.hash (mdPadBlocks toLE64 s.buffer s.numBytes))
  ∧ (∀ s : MdState Sha1.Regs,
      Sha1.processBuffer s
        = List.foldl Sha1.compress s.hash (mdPadBlocks toBE64 s.buffer s.numBytes))
  ∧ (∀ s : MdState Sha256.Regs,
      Sha256.processBuffer s
        = List.foldl Sha256.compress s.hash (mdPadBlocks toBE64 s.buffer s.numBytes)) := by
  refine ⟨?_, fun s => rfl, fun s => rfl, fun s => rfl⟩
  intro buf numBytes hbuf
  have hle : ∀ encodeLen : Nat → List Byte, (∀ x, (encodeLen x).length = 8) →
      (mdPadBlocks encodeLen buf numBytes).length
        = (if buf.length + 1 + 8 ≤ 64 then 1 else 2)
      ∧ (∀ blk ∈ mdPadBlocks encodeLen buf numBytes, blk.length = 64) := by
    intro encodeLen hlen8
    rw [mdPadBlocks_eq encodeLen buf numBytes hbuf]
    by_cases hb : buf.length ≤ 55
    · rw [if_pos hb, if_pos (by omega)]
      refine ⟨rfl, ?_⟩
      intro blk hblk
      simp only [List.mem_singleton] at hblk
      subst hblk
      simp only [List.length_append, List.length_cons, List.length_replicate, hlen8]
      omega
    · rw [if_neg hb, if_neg (by omega)]
      refine ⟨rfl, ?_⟩
      intro blk hblk
      simp only [List.mem_cons, List.mem_singleton, List.not_mem_nil, or_false] at hblk
      rcases hblk with h | h <;> subst h <;>
        simp only [List.length_append, List.length_cons, List.length_replicate, hlen8] <;>
        omega
  refine ⟨?_, (hle toLE64 toLE64_length).1, (hle toBE64 toBE64_length).1,
    (hle toLE64 toLE64_length).2, (hle toBE64 toBE64_length).2⟩
  intro encodeLen
  rw [mdPadBlocks_eq encodeLen buf numBytes hbuf]
  by_cases hb : buf.length ≤ 55
  · rw [if_pos hb, if_pos hb]
    simp
  · rw [if_neg hb, if_neg hb]
    have h4 : (119 - buf.length) = (63 - buf.length) + 56 := by omega
    rw [h4, List.replicate_add]
    simp [List.append_assoc]

/-- C3 witness: a 3-byte buffer with 5 bytes already processed, MD5's
little-endian length encoder. -/
theorem C3_witness :
    (([(97 : Byte), 98, 99]).length < 64)
  ∧ (mdPadBlocks toLE64 [(97 : Byte), 98, 99] 5).flatten
      = [(97 : Byte), 98, 99] ++ (128 : Byte) :: (List.replicate
            ((if ([(97 : Byte), 98, 99]).length ≤ 55 then 55 else 119)
              - ([(97 : Byte), 98, 99]).length) 0
          ++ toLE64 ((8 * (5 + ([(97 : Byte), 98, 99]).length)) % 2 ^ 64)) :=
  ⟨by norm_num,
   (C3_md_padding_layout.1 [97, 98, 99] 5 (by norm_num)).1 toLE64⟩

/-- C4: MD5/SHA-1/SHA-256 `hashFinal` restores `m_hash` and leaves
`m_numBytes`/`m_bufferSize` untouched — the post-state equals the
pre-state — so a second `hashFinal` returns the same digest and a
subsequent `hashCore` continues the stream unchanged. -/
theorem C4_md_hashFinal_restores :
    (∀ s : MdState Md5.Regs, (Md5.hashFinal s).2 = s)
  ∧ (∀ s : MdState Sha1.Regs, (Sha1.hashFinal s).2 = s)
  ∧ (∀ s : MdState Sha256.Regs, (Sha256.hashFinal s).2 = s)
  ∧ (∀ s : MdState Md5.Regs, (Md5.hashFinal (Md5.hashFinal s).2).1 = (Md5.hashFinal s).1)
  ∧ (∀ s : MdState Sha1.Regs, (Sha1.hashFinal (Sha1.hashFinal s).2).1 = (Sha1.hashFinal s).1)
  ∧ (∀ s : MdState Sha256.Regs,
      (Sha256.hashFinal (Sha256.hashFinal s).2).1 = (Sha256.hashFinal s).1)
  ∧ (∀ (s : MdState Md5.Regs) (input : List Byte),
      Md5.hashCore (Md5.hashFinal s).2 input = Md5.hashCore s input)
  ∧ (∀ (s : MdState Sha1.Regs) (input : List Byte),
      Sha1.hashCore (Sha1.hashFinal s).2 input = Sha1.hashCore s input)
  ∧ (∀ (s : MdState Sha256.Regs) (input : List Byte),
      Sha256.hashCore (Sha256.hashFinal s).2 input = Sha256.hashCore s input) :=
  ⟨fun s => rfl, fun s => rfl, fun s => rfl, fun s => rfl, fun s => rfl, fun s => rfl,
   fun s input => rfl, fun s input => rfl, fun s input => rfl⟩

/-- Small-input closed form of the buffered engine: when the buffered
bytes plus the new input still fit below a block, `hashCore` only
extends the buffer. -/
theorem hashCoreG_small {σ : Type} (compress : σ → List Byte → σ) (bs : Nat)
    (hbs : 0 < bs) (s : MdState σ) (input : List Byte)
    (hlen : s.buffer.length + input.length < bs) :
    hashCoreG compress bs s input = ⟨s.hash, s.numBytes, s.buffer ++ input⟩ := by
  rw [hashCoreG_eq compress bs hbs s input (by omega), Nat.div_eq_of_lt hlen,
    foldBlocks_small compress bs _ _ (by simp only [List.length_append]; omega)]
  simp

/-- C5: the slicing-by-16 CRC cores (`Crc32::hashCore`/`Crc64::hashCore`,
64-byte groups of sixteen XORed table-slice lookups, byte-at-a-time
remainder, inversion on entry and exit) compute exactly the classical
single-byte-at-a-time table CRC with the same polynomial and the same
inversions. -/
theorem C5_crc_slicing_matches_bytewise :
    (∀ (poly h : Nat) (l : List Byte), poly < 2 ^ 32 → h < 2 ^ 32 →
      crc32HashCore poly h l = crc32Ref poly h l)
  ∧ (∀ (poly h : Nat) (l : List Byte), poly < 2 ^ 64 → h < 2 ^ 64 →
      crc64HashCore poly h l = crc64Ref poly h l) :=
  ⟨fun poly h l hp hh => crc32HashCore_eq_ref poly h hp hh l,
   fun poly h l hp hh => crc64HashCore_eq_ref poly h hp hh l⟩

/-- C5 witness: the CRC-32 polynomial and seed of `Crc32`, on a 70-byte
input (one sliced 64-byte group plus a 6-byte remainder). -/
theorem C5_witness :
    ((0xEDB88320 : Nat) < 2 ^ 32 ∧ (0xFFFFFFFF : Nat) < 2 ^ 32)
  ∧ crc32HashCore 0xEDB88320 0xFFFFFFFF (List.replicate 70 (165 : Byte))
      = crc32Ref 0xEDB88320 0xFFFFFFFF (List.replicate 70 (165 : Byte)) :=
  ⟨⟨by norm_num, by norm_num⟩,
   C5_crc_slicing_matches_bytewise.1 0xEDB88320 0xFFFFFFFF
     (List.replicate 70 (165 : Byte)) (by norm_num) (by norm_num)⟩

set_option maxRecDepth 400000 in
/-- C6 counterexample: the digest of `Sha1` on `"abc"` does not render
to the spec's 39-hex-character vector (which is one character short). -/
theorem C6_counterexample :
    hexString (Sha1.computeHash [97, 98, 99])
      ≠ ("a9993e364706816aba3e25717850c26c9cd0d89").toList := by
  have e : Sha1.hashCore Sha1.initState [97, 98, 99]
      = ⟨Sha1.initState.hash, 0, [97, 98, 99]⟩ :=
    hashCoreG_small Sha1.compress 64 (by norm_num) Sha1.initState [97, 98, 99]
      (by norm_num [Sha1.initState])
  show hexString (Sha1.hashFinal (Sha1.hashCore Sha1.initState [97, 98, 99])).1 ≠ _
  rw [e]
  decide

set_option maxRecDepth 400000 in
/-- C6 amended: `Sha1` on `"abc"` produces the full FIPS 180 vector
`a9993e364706816aba3e25717850c26c9cd0d89d` (40 hex characters). -/
theorem C6_sha1_abc_vector :
    hexString (Sha1.computeHash [97, 98, 99])
      = ("a9993e364706816aba3e25717850c26c9cd0d89d").toList := by
  have e : Sha1.hashCore Sha1.initState [97, 98, 99]
      = ⟨Sha1.initState.hash, 0, [97, 98, 99]⟩ :=
    hashCoreG_small Sha1.compress 64 (by norm_num) Sha1.initState [97, 98, 99]
      (by norm_num [Sha1.initState])
  show hexString (Sha1.hashFinal (Sha1.hashCore Sha1.initState [97, 98, 99])).1 = _
  rw [e]
  decide

set_option maxRecDepth 400000 in
/-- C7 counterexample: the MD5 digest of the empty input is not the
big-endian rendering of its final registers — `Md5::hashFinal` dumps
the registers in native little-endian order. -/
theorem C7_counterexample :
    (Md5.hashFinal Md5.initState).1
      ≠ beDigest32 [(Md5.processBuffer Md5.initState).h0,
                    (Md5.processBuffer Md5.initState).h1,
                    (Md5.processBuffer Md5.initState).h2,
                    (Md5.processBuffer Md5.initState).h3] := by
  decide

/-- C7 amended: the per-algorithm digest byte orders. SHA-1, SHA-256,
CRC-32, CRC-64, xxHash32 and xxHash64 emit big-endian
(most-significant-byte-first) words, but MD5 emits its registers
little-endian and SHA-3 squeezes its lanes little-endian. For the
xxHashes the digest is pinned as the big-endian image of the scalar
finalizer word, and the byte order is exercised non-vacuously on the
empty input: the emitted bytes are the most-significant-first rendering
of the reference values xxh32("") = 0x02CC5D05 and
xxh64("") = 0xEF46DB3751D8E999, and differ from their little-endian
renderings. -/
theorem C7_digest_byte_orders :
    (∀ r : Md5.Regs, Md5.digestBytes r
        = toLE32 r.h0 ++ toLE32 r.h1 ++ toLE32 r.h2 ++ toLE32 r.h3)
  ∧ (∀ r : Sha1.Regs, Sha1.digestBytes r
        = toBE32 r.h0 ++ toBE32 r.h1 ++ toBE32 r.h2 ++ toBE32 r.h3 ++ toBE32 r.h4)
  ∧ (∀ r : Sha256.Regs, Sha256.digestBytes r
        = toBE32 r.h0 ++ toBE32 r.h1 ++ toBE32 r.h2 ++ toBE32 r.h3 ++
          toBE32 r.h4 ++ toBE32 r.h5 ++ toBE32 r.h6 ++ toBE32 r.h7)
  ∧ (∀ (bits : Nat) (s : MdState (List Nat)),
      (Sha3.hashFinal bits s).1
        = ((Sha3.processBuffer (Sha3.blockSize bits) s).map toLE64).flatten.take (bits / 8))
  ∧ (∀ h : Nat, crc32HashFinal h = toBE32 h)
  ∧ (∀ h : Nat, crc64HashFinal h = toBE64 h)
  ∧ (∀ s, XxHash32.hashFinal s = toBE32 (XxHash32.finalWord s))
  ∧ (∀ s, XxHash64.hashFinal s = toBE64 (XxHash64.finalWord s))
  ∧ XxHash32.computeHash 0 [] = [0x02, 0xCC, 0x5D, 0x05]
  ∧ XxHash32.computeHash 0 [] ≠ toLE32 0x02CC5D05
  ∧ XxHash64.computeHash 0 [] = [0xEF, 0x46, 0xDB, 0x37, 0x51, 0xD8, 0xE9, 0x99]
  ∧ XxHash64.computeHash 0 [] ≠ toLE64 0xEF46DB3751D8E999 := by
  have e32core : XxHash32.hashCore (XxHash32.initState 0) [] = XxHash32.initState 0 := by
    decide
  have e32 : XxHash32.computeHash 0 [] = toBE32 0x02CC5D05 := by
    show XxHash32.hashFinal (XxHash32.hashCore (XxHash32.initState 0) []) = _
    rw [e32core]
    show toBE32 (XxHash32.finalWord (XxHash32.initState 0)) = _
    have e2 : XxHash32.finalWord (XxHash32.initState 0) = 0x02CC5D05 := by
      simp only [XxHash32.finalWord, XxHash32.initState, XxHash32.MaxBufferSize,
        XxHash32.tail4_nil]
      decide
    rw [e2]
  have e64core : XxHash64.hashCore (XxHash64.initState 0) [] = XxHash64.initState 0 := by
    decide
  have e64 : XxHash64.computeHash 0 [] = toBE64 0xEF46DB3751D8E999 := by
    show XxHash64.hashFinal (XxHash64.hashCore (XxHash64.initState 0) []) = _
    rw [e64core]
    show toBE64 (XxHash64.finalWord (XxHash64.initState 0)) = _
    have e2 : XxHash64.finalWord (XxHash64.initState 0) = 0xEF46DB3751D8E999 := by
      simp only [XxHash64.finalWord, XxHash64.initState, XxHash64.MaxBufferSize,
        XxHash64.tail8_nil]
      decide
    rw [e2]
  exact ⟨fun r => rfl, fun r => rfl, fun r => rfl, fun bits s => rfl, fun h => rfl,
    fun h => rfl, fun s => rfl, fun s => rfl,
    by rw [e32]; decide, by rw [e32]; decide, by rw [e64]; decide, by rw [e64]; decide⟩

/-- C8 counterexample: a stream whose second `read` fails after
delivering two bytes. `computeHash` does not abort: it returns the
(non-empty) MD5 digest of the truncated three-byte prefix. -/
theorem C8_counterexample :
    computeHashStream Md5.initState Md5.hashCore (fun s => (Md5.hashFinal s).1) true
        [([97], true), ([98, 99], false)]
      = Md5.computeHash [97, 98, 99]
    ∧ computeHashStream Md5.initState Md5.hashCore (fun s => (Md5.hashFinal s).1) true
        [([97], true), ([98, 99], false)] ≠ [] := by
  have e1 : Md5.hashCore Md5.initState [97]
      = ⟨Md5.initState.hash, 0, [97]⟩ :=
    hashCoreG_small Md5.compress 64 (by norm_num) Md5.initState [97]
      (by norm_num [Md5.initState])
  have e2 : Md5.hashCore (⟨Md5.initState.hash, 0, [97]⟩ : MdState Md5.Regs) [98, 99]
      = ⟨Md5.initState.hash, 0, [97, 98, 99]⟩ :=
    hashCoreG_small Md5.compress 64 (by norm_num) _ [98, 99] (by norm_num)
  have e3 : Md5.hashCore Md5.initState [97, 98, 99]
      = ⟨Md5.initState.hash, 0, [97, 98, 99]⟩ :=
    hashCoreG_small Md5.compress 64 (by norm_num) Md5.initState [97, 98, 99]
      (by norm_num [Md5.initState])
  have estream : computeHashStream Md5.initState Md5.hashCore
      (fun s => (Md5.hashFinal s).1) true [([97], true), ([98, 99], false)]
      = (Md5.hashFinal (Md5.hashCore (Md5.hashCore Md5.initState [97]) [98, 99])).1 := rfl
  constructor
  · rw [estream, e1, e2]
    show _ = (Md5.hashFinal (Md5.hashCore Md5.initState [97, 98, 99])).1
    rw [e3]
  · rw [estream, e1, e2]
    decide

/-- C8 amended: `HashAlgorithm::computeHash(std::istream&)` (modelled
over the list of a stream's `read` results) hashes every byte delivered
up to and including the failing read and returns the digest of that
truncated prefix; only a stream that is bad before the first read
yields the empty-vector failure result. -/
theorem C8_stream_truncated_digest :
    (∀ reads : List (List Byte × Bool),
      computeHashStream Md5.initState Md5.hashCore (fun s => (Md5.hashFinal s).1)
          true reads
        = Md5.computeHash (readsUntilFail reads).flatten)
  ∧ (∀ reads : List (List Byte × Bool),
      computeHashStream Md5.initState Md5.hashCore (fun s => (Md5.hashFinal s).1)
          false reads
        = []) := by
  constructor
  · intro reads
    show (Md5.hashFinal (streamLoop Md5.hashCore Md5.initState reads)).1 = _
    rw [streamLoop_eq_foldl]
    exact congrArg (fun s => (Md5.hashFinal s).1)
      (mdStreaming Md5.compress 64 (by norm_num) Md5.initState.hash (readsUntilFail reads))
  · intro reads
    rfl

/-- C9: for every buffered algorithm the invariant
`0 ≤ bufferSize < blockSize` holds after `initialize` and after any
sequence of `hashCore` calls of any lengths. -/
theorem C9_buffer_invariant :
    (Md5.initState.buffer.length = 0
      ∧ ∀ chunks : List (List Byte),
        (List.foldl Md5.hashCore Md5.initState chunks).buffer.length < 64)
  ∧ (Sha1.initState.buffer.length = 0
      ∧ ∀ chunks : List (List Byte),
        (List.foldl Sha1.hashCore Sha1.initState chunks).buffer.length < 64)
  ∧ (Sha256.initState.buffer.length = 0
      ∧ ∀ chunks : List (List Byte),
        (List.foldl Sha256.hashCore Sha256.initState chunks).buffer.length < 64)
  ∧ (∀ bits : Nat, (bits = 224 ∨ bits = 256 ∨ bits = 384 ∨ bits = 512) →
      Sha3.initState.buffer.length = 0
      ∧ ∀ chunks : List (List Byte),
        (List.foldl (Sha3.hashCore bits) Sha3.initState chunks).buffer.length
          < Sha3.blockSize bits)
  ∧ (∀ seed : Nat, (XxHash32.initState seed).buffer.length = 0
      ∧ ∀ chunks : List (List Byte),
        (List.foldl XxHash32.hashCore (XxHash32.initState seed) chunks).buffer.length
          < XxHash32.MaxBufferSize)
  ∧ (∀ seed : Nat, (XxHash64.initState seed).buffer.length = 0
      ∧ ∀ chunks : List (List Byte),
        (List.foldl XxHash64.hashCore (XxHash64.initState seed) chunks).buffer.length
          < XxHash64.MaxBufferSize) := by
  refine ⟨⟨rfl, fun chunks => ?_⟩, ⟨rfl, fun chunks => ?_⟩, ⟨rfl, fun chunks => ?_⟩,
    ?_, fun seed => ⟨rfl, fun chunks => ?_⟩, fun seed => ⟨rfl, fun chunks => ?_⟩⟩
  · exact mdBufferBound Md5.compress 64 (by norm_num) Md5.initState.hash chunks
  · exact mdBufferBound Sha1.compress 64 (by norm_num) Sha1.initState.hash chunks
  · exact mdBufferBound Sha256.compress 64 (by norm_num) Sha256.initState.hash chunks
  · intro bits hbits
    have hbs : 0 < Sha3.blockSize bits := by
      rcases hbits with h | h | h | h <;> subst h <;> norm_num [Sha3.blockSize]
    exact ⟨rfl, fun chunks => mdBufferBound (Sha3.processBlock (Sha3.blockSize bits))
      (Sha3.blockSize bits) hbs Sha3.initState.hash chunks⟩
  · exact xxBufferBound XxHash32.process 16 (by norm_num)
      (XxHash32.initState seed).state chunks
  · exact xxBufferBound XxHash64.process 32 (by norm_num)
      (XxHash64.initState seed).state chunks

/-- C9 witness: the SHA-3-256 instance after two `hashCore` calls. -/
theorem C9_witness :
    ((256 : Nat) = 224 ∨ (256 : Nat) = 256 ∨ (256 : Nat) = 384 ∨ (256 : Nat) = 512)
  ∧ (List.foldl (Sha3.hashCore 256) Sha3.initState [[5], []]).buffer.length
      < Sha3.blockSize 256 :=
  ⟨Or.inr (Or.inl rfl),
   (C9_buffer_invariant.2.2.2.1 256 (Or.inr (Or.inl rfl))).2 [[5], []]⟩

set_option maxRecDepth 400000 in
/-- C10: `Sha3::hashFinal` does not restore the lane state —
`processBuffer` permanently absorbs the padding block — so two
consecutive `hashFinal` calls on the empty input return different
digests. -/
theorem C10_sha3_hashFinal_not_restoring :
    (∀ (bits : Nat) (s : MdState (List Nat)),
      (Sha3.hashFinal bits s).2.hash = Sha3.processBuffer (Sha3.blockSize bits) s)
  ∧ (Sha3.hashFinal 256 Sha3.initState).1
      ≠ (Sha3.hashFinal 256 (Sha3.hashFinal 256 Sha3.initState).2).1 :=
  ⟨fun bits s => rfl, by decide⟩

/-- C1 witness: a three-chunk split (with an interspersed empty chunk)
for the hypothesis-bearing components (SHA-3-256, CRC-32, CRC-64). -/
theorem C1_witness :
    (((256 : Nat) = 224 ∨ (256 : Nat) = 256 ∨ (256 : Nat) = 384 ∨ (256 : Nat) = 512)
      ∧ (0xEDB88320 : Nat) < 2 ^ 32 ∧ (0 : Nat) < 2 ^ 32
      ∧ (0x42F0E1EBA9EA3693 : Nat) < 2 ^ 64 ∧ (0 : Nat) < 2 ^ 64)
  ∧ ((Sha3.hashFinal 256 (List.foldl (Sha3.hashCore 256) Sha3.initState [[1], [], [2, 3]])).1
      = (Sha3.hashFinal 256
          (Sha3.hashCore 256 Sha3.initState ([[1], [], [2, 3]] : List (List Byte)).flatten)).1)
  ∧ (crc32HashFinal (List.foldl (crc32HashCore 0xEDB88320) 0 [[1], [], [2, 3]])
      = crc32HashFinal (crc32HashCore 0xEDB88320 0 ([[1], [], [2, 3]] : List (List Byte)).flatten))
  ∧ (crc64HashFinal (List.foldl (crc64HashCore 0x42F0E1EBA9EA3693) 0 [[1], [], [2, 3]])
      = crc64HashFinal
          (crc64HashCore 0x42F0E1EBA9EA3693 0 ([[1], [], [2, 3]] : List (List Byte)).flatten)) :=
  ⟨⟨Or.inr (Or.inl rfl), by norm_num, by norm_num, by norm_num, by norm_num⟩,
   C1_streaming_equivalence.2.2.2.1 256 (Or.inr (Or.inl rfl)) [[1], [], [2, 3]],
   C1_streaming_equivalence.2.2.2.2.1 0xEDB88320 0 (by norm_num) (by norm_num) [[1], [], [2, 3]],
   C1_streaming_equivalence.2.2.2.2.2.1 0x42F0E1EBA9EA3693 0 (by norm_num) (by norm_num)
     [[1], [], [2, 3]]⟩
